import Mathlib

/-!
Verification of the pep440 range-rewriting module.

The repository contains two variants of the module:
* `src/lib/versioning/pep440/range.ts` — embedded below in namespace `RangeTs`;
* `src/unnamed/part_001` — embedded below in namespace `PartOne`.

Both variants consume the external `@renovatebot/pep440` library
(`parse` of versions and specifier sets, `lt`/`lte`/`gte`/`satisfies`).
That library is modelled in namespace `pep440`, restricted to the numeric
release fragment of PEP 440 that the module exercises: a version is a
dot-separated sequence of decimal numerals, parsed to its release tuple;
comparison is positional with implicit zero padding; a specifier clause is
an operator from `===, ~=, ==, !=, <=, >=, <, >` followed by a version,
optionally carrying a trailing `.*` wildcard (wildcards only on `==`/`!=`,
`~=` requires at least two release components, as in PEP 440).  Strings
outside this fragment simply fail to parse, mirroring the library's
rejection of invalid input.
-/

namespace pep440

/-- Split a character list on a separator character (like JS `split`).
Always returns at least one (possibly empty) segment. -/
def splitOnChar (sep : Char) : List Char → List (List Char)
  | [] => [[]]
  | c :: cs =>
    match splitOnChar sep cs with
    | [] => if c = sep then [[], []] else [[c]]
    | p :: ps => if c = sep then [] :: p :: ps else (c :: p) :: ps

/-- Drop leading and trailing whitespace. -/
def trimWs (cs : List Char) : List Char :=
  ((cs.dropWhile Char.isWhitespace).reverse.dropWhile Char.isWhitespace).reverse

/-- Decimal digits to a natural number. -/
def digitsToNat (cs : List Char) : Nat :=
  cs.foldl (fun n c => n * 10 + (c.toNat - 48)) 0

/-- Parse a dot-separated sequence of decimal numerals into a release tuple. -/
def parseDotted (cs : List Char) : Option (List Nat) :=
  let parts := splitOnChar '.' cs
  if parts.all (fun p => !p.isEmpty && p.all Char.isDigit) then
    some (parts.map digitsToNat)
  else
    none

/-- `version.parse` of the library, numeric fragment: the release tuple. -/
def parseVersion (s : String) : Option (List Nat) :=
  parseDotted s.data

/-- `parse(v)?.release ?? []` as used throughout the module. -/
def releaseOf (s : String) : List Nat :=
  (parseVersion s).getD []

/-- Positional comparison of release tuples with implicit zero padding. -/
def relCmp : List Nat → List Nat → Ordering
  | [], ys => if ys.all (fun y => y = 0) then Ordering.eq else Ordering.lt
  | x :: xs, ys =>
    let y := ys.headD 0
    if x < y then Ordering.lt
    else if y < x then Ordering.gt
    else relCmp xs ys.tail

/-- Library `lt` on version strings (false when either side is unparseable;
inside the module it is only reached on parseable versions). -/
def lt (a b : String) : Bool :=
  match parseVersion a, parseVersion b with
  | some x, some y => relCmp x y = Ordering.lt
  | _, _ => false

/-- Library `lte` on version strings. -/
def lte (a b : String) : Bool :=
  match parseVersion a, parseVersion b with
  | some x, some y => relCmp x y ≠ Ordering.gt
  | _, _ => false

/-- Library `gte` on version strings. -/
def gte (a b : String) : Bool :=
  match parseVersion a, parseVersion b with
  | some x, some y => relCmp x y ≠ Ordering.lt
  | _, _ => false

/-- First `n` components of a release tuple, zero padded. -/
def padTake : Nat → List Nat → List Nat
  | 0, _ => []
  | n + 1, [] => 0 :: padTake n []
  | n + 1, x :: xs => x :: padTake n xs

/-- A parsed specifier clause: `{operator, version, prefix}` of the sources,
with the truthy wildcard `prefix` field modelled as the Bool `wildcard`
(the spec's has-wildcard-suffix flag; the version field holds the numeric
part without the `.*` suffix). -/
structure Range where
  operator : String
  version : String
  wildcard : Bool
deriving DecidableEq, Repr

/-- Operator token at the head of a clause.  `===` is listed before `==`
because the library's anchored specifier regex backtracks into the longer
alternative when the remainder must still parse as a version. -/
def matchSpecOp : List Char → Option (String × List Char)
  | '=' :: '=' :: '=' :: rest => some ("===", rest)
  | '~' :: '=' :: rest => some ("~=", rest)
  | '=' :: '=' :: rest => some ("==", rest)
  | '!' :: '=' :: rest => some ("!=", rest)
  | '<' :: '=' :: rest => some ("<=", rest)
  | '>' :: '=' :: rest => some (">=", rest)
  | '<' :: rest => some ("<", rest)
  | '>' :: rest => some (">", rest)
  | _ => none

/-- Strip a trailing `.*` wildcard, if present. -/
def dropWildcard (cs : List Char) : Option (List Char) :=
  match cs.reverse with
  | '*' :: '.' :: core => some core.reverse
  | _ => none

/-- Parse one specifier clause. -/
def parseClauseL (cs : List Char) : Option Range :=
  match matchSpecOp (trimWs cs) with
  | none => none
  | some (op, rest) =>
    let rest := trimWs rest
    if op = "===" then
      if rest.isEmpty then none else some ⟨op, String.mk rest, false⟩
    else
      match dropWildcard rest with
      | some core =>
        if (op = "==" ∨ op = "!=") ∧ (parseDotted core).isSome then
          some ⟨op, String.mk core, true⟩
        else none
      | none =>
        match parseDotted rest with
        | some ts =>
          if op = "~=" ∧ ts.length < 2 then none
          else some ⟨op, String.mk rest, false⟩
        | none => none

/-- Option-valued map over a list, failing if any element fails. -/
def mapOpt (f : α → Option β) : List α → Option (List β)
  | [] => some []
  | x :: xs =>
    match f x, mapOpt f xs with
    | some y, some ys => some (y :: ys)
    | _, _ => none

/-- `specifier.parse` of the library: an (all-)empty specifier set is the
valid unconstrained range `[]`; otherwise every comma-separated clause must
parse. -/
def parseRange (s : String) : Option (List Range) :=
  if s.data.all Char.isWhitespace then some []
  else mapOpt parseClauseL (splitOnChar ',' s.data)

/-- Evaluate one clause against a parsed version (string also supplied for
the `===` textual comparison). -/
def evalClause (vts : List Nat) (v : String) (r : Range) : Bool :=
  let pts := releaseOf r.version
  if r.wildcard then
    if r.operator = "==" then padTake pts.length vts = pts
    else if r.operator = "!=" then !(padTake pts.length vts = pts)
    else false
  else if r.operator = "==" then relCmp vts pts = Ordering.eq
  else if r.operator = "!=" then !(relCmp vts pts = Ordering.eq)
  else if r.operator = "<=" then relCmp vts pts ≠ Ordering.gt
  else if r.operator = ">=" then relCmp vts pts ≠ Ordering.lt
  else if r.operator = "<" then relCmp vts pts = Ordering.lt
  else if r.operator = ">" then relCmp vts pts = Ordering.gt
  else if r.operator = "~=" then
    decide (relCmp vts pts ≠ Ordering.lt ∧
      padTake (pts.length - 1) vts = padTake (pts.length - 1) pts)
  else if r.operator = "===" then v = r.version
  else false

/-- Library `satisfies`: false when the version or the specifier set is
unparseable, otherwise the conjunction of all clauses. -/
def satisfies (version range : String) : Bool :=
  match parseVersion version, parseRange range with
  | some vts, some rs => rs.all (evalClause vts version)
  | _, _ => false

/-- Render a release tuple back to a dot-separated string (JS `join('.')`). -/
def joinRelease (ts : List Nat) : String :=
  String.mk (List.intercalate ['.'] (ts.map (fun n => (Nat.repr n).data)))

end pep440

/-- Add `step` to the entry at index `i` (no-op out of range, as the JS
out-of-range `+=` leaves the array's joined form unchanged). -/
def incAt : List Nat → Nat → Nat → List Nat
  | [], _, _ => []
  | x :: xs, 0, step => (x + step) :: xs
  | x :: xs, n + 1, step => x :: incAt xs n step

/-- Add `step` to the last entry (`arr[arr.length - 1] += step`; no-op on
the empty list, as in JS where only a stray `-1` property is created). -/
def incLast (l : List Nat) (step : Nat) : List Nat :=
  incAt l (l.length - 1) step

/-- First position at which the target's component (implicit zero when the
target is shorter) strictly exceeds the base's component. -/
def firstExceed : List Nat → List Nat → Option Nat
  | [], _ => none
  | b :: bs, tos =>
    if b < tos.headD 0 then some 0
    else (firstExceed bs tos.tail).map (fun i => i + 1)

/-- Copy the target's components (implicit zero) over the base's positions. -/
def copyTos : List Nat → List Nat → List Nat
  | [], _ => []
  | _ :: bs, tos => tos.headD 0 :: copyTos bs tos.tail

/-- The claim's description of the advance point: before position `i` copy
the target, at `i` emit target-plus-step, after `i` emit zero. -/
def advanceAt : List Nat → List Nat → Nat → Nat → List Nat
  | [], _, _, _ => []
  | _ :: bs, tos, step, 0 => (tos.headD 0 + step) :: bs.map (fun _ => 0)
  | _ :: bs, tos, step, i + 1 => tos.headD 0 :: advanceAt bs tos.tail step i

/-- The future-version walk exactly as the spec/claim words it: advance at
the first exceeding position, zero-fill after it, copy the target before
it; with no exceeding position, increment the last copied position. -/
def claimFuture (bases tos : List Nat) (step : Nat) : List Nat :=
  match firstExceed bases tos with
  | some i => advanceAt bases tos step i
  | none => incLast (copyTos bases tos) step

namespace RangeTs

/-- The `found`/`set` scan of `getFutureVersion` in
`src/lib/versioning/pep440/range.ts` (the callback of `baseRelease.map`,
with the two mutable flags threaded explicitly; `set = -1` is `none`). -/
def futureMap : List Nat → List Nat → Bool → Option Nat → Nat →
    List Nat × Bool × Option Nat
  | [], _, found, set, _ => ([], found, set)
  | basePart :: bs, tos, found, set, index =>
    let toPart := tos.headD 0
    if found && set.isNone then
      let r := futureMap bs tos.tail found (some index) (index + 1)
      (toPart :: r.1, r.2)
    else if found then
      let r := futureMap bs tos.tail found set (index + 1)
      (0 :: r.1, r.2)
    else if basePart < toPart then
      let r := futureMap bs tos.tail true set (index + 1)
      (toPart :: r.1, r.2)
    else
      let r := futureMap bs tos.tail found set (index + 1)
      (toPart :: r.1, r.2)

/-- Release-tuple core of `getFutureVersion` (range.ts variant): the scan
followed by the three conditional increments of the source. -/
def futureRelease (baseRelease toRelease : List Nat) (step : Nat) : List Nat :=
  let scan := futureMap baseRelease toRelease false none 0
  let fr := scan.1
  let found := scan.2.1
  let set := scan.2.2
  let fr1 :=
    match set with
    | some s => incAt fr (if s = fr.length - 1 then s - 1 else s) step
    | none => fr
  let fr2 := if found = false then incLast fr1 step else fr1
  if found = true ∧ set = none then incLast fr2 step else fr2

/-- `getFutureVersion` of `src/lib/versioning/pep440/range.ts`. -/
def getFutureVersion (baseVersion newVersion : String) (step : Nat) : String :=
  pep440.joinRelease
    (futureRelease (pep440.releaseOf baseVersion) (pep440.releaseOf newVersion) step)

/-- The per-clause rewrite rule table inside `getNewValue` (range.ts
variant packs it as the callback of `ranges.map`; `null` is `none`). -/
def rewriteClause (rangeStrategy newVersion : String) (r : pep440.Range) :
    Option String :=
  if r.operator = "!=" then some (r.operator ++ r.version)
  else if r.operator = ">" ∨ r.operator = ">=" then
    if pep440.lte newVersion r.version then some (">=" ++ newVersion)
    else if rangeStrategy = "bump" ∧ r.operator = ">=" then
      some (r.operator ++ newVersion)
    else some (r.operator ++ r.version)
  else if r.operator = "<" then
    if pep440.gte newVersion r.version then
      some (r.operator ++ getFutureVersion r.version newVersion 1)
    else some (r.operator ++ r.version)
  else if r.wildcard then
    some (r.operator ++ getFutureVersion r.version newVersion 0 ++ ".*")
  else if r.operator = "==" ∨ r.operator = "~=" ∨ r.operator = "<=" then
    some (r.operator ++ newVersion)
  else none

end RangeTs

/-- `result.includes(pat)` as a substring test on character lists. -/
def startsWithL : List Char → List Char → Bool
  | [], _ => true
  | _ :: _, [] => false
  | p :: ps, c :: cs => p = c && startsWithL ps cs

/-- Substring occurrence test. -/
def isSubL (pat : List Char) : List Char → Bool
  | [] => pat.isEmpty
  | l@(_ :: rest) => startsWithL pat l || isSubL pat rest

/-- `result.includes(', ')`. -/
def hasCommaSpace (s : String) : Bool :=
  isSubL [',', ' '] s.data

/-- `result.replace(/, /g, ',')`: non-overlapping left-to-right. -/
def stripSepL : List Char → List Char
  | [] => []
  | ',' :: ' ' :: rest => ',' :: stripSepL rest
  | c :: rest => c :: stripSepL rest

/-- Join rewritten clauses with `', '`. -/
def joinComma (parts : List String) : String :=
  String.mk (List.intercalate [',', ' '] (parts.map String.data))

namespace RangeTs

/-- `getNewValue` of `src/lib/versioning/pep440/range.ts`.  The JS function
recurses once, re-entering itself with the strategy replaced by
`'replace'`; the `fuel` argument bounds that single bounded recursion (the
fuel-0 fallback is unreachable because `'replace'` is always in the
accepted set). -/
def getNewValueFuel :
    Nat → String → String → String → String → Option String
  | 0, _, _, _, _ => none
  | fuel + 1, currentValue, rangeStrategy, currentVersion, newVersion =>
    if rangeStrategy = "pin" then some ("==" ++ newVersion)
    else if currentValue = currentVersion then some newVersion
    else
      match pep440.parseRange currentValue with
      | none => none
      | some ranges =>
        if ranges.isEmpty then some currentValue
        else if (rangeStrategy = "auto" ∨ rangeStrategy = "replace") ∧
            pep440.satisfies newVersion currentValue then
          some currentValue
        else if rangeStrategy = "replace" ∨ rangeStrategy = "bump" then
          if ranges.any (fun r => r.operator = "===") then none
          else
            let parts := ranges.filterMap (rewriteClause rangeStrategy newVersion)
            let result := joinComma parts
            let result :=
              if hasCommaSpace result ∧ ¬hasCommaSpace currentValue then
                String.mk (stripSepL result.data)
              else result
            if pep440.satisfies newVersion result then some result else none
        else getNewValueFuel fuel currentValue "replace" currentVersion newVersion

/-- Entry point of the range.ts variant. -/
def getNewValue (currentValue rangeStrategy currentVersion newVersion : String) :
    Option String :=
  getNewValueFuel 2 currentValue rangeStrategy currentVersion newVersion

end RangeTs

namespace PartOne

/-- `findIndex((el, index) => el > lowerBound[index])` over the upper
bound's release tuple; a missing lower component compares as JS
`el > undefined`, i.e. false. -/
def findGreaterIdx : List Nat → List Nat → Option Nat
  | [], _ => none
  | u :: us, ls =>
    match ls with
    | [] => (findGreaterIdx us []).map (fun i => i + 1)
    | l :: ls' =>
      if l < u then some 0
      else (findGreaterIdx us ls').map (fun i => i + 1)

/-- `getUserReplacePrecision` of `src/unnamed/part_001`: on a two-clause
range, the first index at which the upper bound exceeds the lower.  The
enum round-trip `ReplaceUserPolicy[ReplaceUserPolicy[index]]` yields the
index itself for 0..3 and `undefined` (here `none`) otherwise. -/
def getUserReplacePrecision (ranges : List pep440.Range) : Option Nat :=
  match ranges with
  | [r0, r1] =>
    let lowerBound := pep440.releaseOf r0.version
    let upperBound := pep440.releaseOf r1.version
    match findGreaterIdx upperBound lowerBound with
    | some index => if index < 4 then some index else none
    | none => none
  | _ => none

/-- `getFutureReplaceVersion` of `src/unnamed/part_001`: keep components
before the policy index, increment at it, zero after it. -/
def getFutureReplaceVersion (newVersion : String) (policy : Nat) : String :=
  let toRelease := pep440.releaseOf newVersion
  pep440.joinRelease
    (toRelease.mapIdx (fun index num =>
      if index < policy then num
      else if index = policy then num + 1
      else 0))

/-- The single-flag scan of `getFutureVersion` in `src/unnamed/part_001`
(the callback of `baseRelease.map` with `found` threaded explicitly). -/
def futureMap : List Nat → List Nat → Nat → Bool → List Nat × Bool
  | [], _, _, found => ([], found)
  | basePart :: bs, tos, step, found =>
    if found then
      let r := futureMap bs tos.tail step true
      (0 :: r.1, r.2)
    else
      let toPart := tos.headD 0
      if basePart < toPart then
        let r := futureMap bs tos.tail step true
        ((toPart + step) :: r.1, r.2)
      else
        let r := futureMap bs tos.tail step false
        (toPart :: r.1, r.2)

/-- Release-tuple core of `getFutureVersion` (part_001 variant). -/
def futureRelease (baseRelease toRelease : List Nat) (step : Nat) : List Nat :=
  let scan := futureMap baseRelease toRelease step false
  if scan.2 = false then incLast scan.1 step else scan.1

/-- `getFutureVersion` of `src/unnamed/part_001`. -/
def getFutureVersion (baseVersion newVersion : String) (step : Nat) : String :=
  pep440.joinRelease
    (futureRelease (pep440.releaseOf baseVersion) (pep440.releaseOf newVersion) step)

/-- The per-clause rewrite rule table inside `getNewValue` (part_001
variant): `>=` is tightened under `replace` as well as `bump`, and an
out-of-range `<` bound consults the two-clause precision inference under
`replace`. -/
def rewriteClause (ranges : List pep440.Range) (rangeStrategy newVersion : String)
    (r : pep440.Range) : Option String :=
  if r.operator = "!=" then some (r.operator ++ r.version)
  else if r.operator = ">" ∨ r.operator = ">=" then
    if pep440.lte newVersion r.version then some (">=" ++ newVersion)
    else if (rangeStrategy = "replace" ∨ rangeStrategy = "bump") ∧
        r.operator = ">=" then
      some (r.operator ++ newVersion)
    else some (r.operator ++ r.version)
  else if r.operator = "<" then
    if pep440.gte newVersion r.version then
      match getUserReplacePrecision ranges with
      | some policy =>
        if rangeStrategy = "replace" then
          some (r.operator ++ getFutureReplaceVersion newVersion policy)
        else some (r.operator ++ getFutureVersion r.version newVersion 1)
      | none => some (r.operator ++ getFutureVersion r.version newVersion 1)
    else some (r.operator ++ r.version)
  else if r.wildcard then
    some (r.operator ++ getFutureVersion r.version newVersion 0 ++ ".*")
  else if r.operator = "==" ∨ r.operator = "~=" ∨ r.operator = "<=" then
    some (r.operator ++ newVersion)
  else none

/-- `getNewValue` of `src/unnamed/part_001`; same single bounded recursion
as the range.ts variant, with `'widen'` additionally accepted. -/
def getNewValueFuel :
    Nat → String → String → String → String → Option String
  | 0, _, _, _, _ => none
  | fuel + 1, currentValue, rangeStrategy, currentVersion, newVersion =>
    if rangeStrategy = "pin" then some ("==" ++ newVersion)
    else if currentValue = currentVersion then some newVersion
    else
      match pep440.parseRange currentValue with
      | none => none
      | some ranges =>
        if ranges.isEmpty then some currentValue
        else if (rangeStrategy = "auto" ∨ rangeStrategy = "replace") ∧
            pep440.satisfies newVersion currentValue then
          some currentValue
        else if rangeStrategy = "replace" ∨ rangeStrategy = "bump" ∨
            rangeStrategy = "widen" then
          if ranges.any (fun r => r.operator = "===") then none
          else
            let parts :=
              ranges.filterMap (rewriteClause ranges rangeStrategy newVersion)
            let result := joinComma parts
            let result :=
              if hasCommaSpace result ∧ ¬hasCommaSpace currentValue then
                String.mk (stripSepL result.data)
              else result
            if pep440.satisfies newVersion result then some result else none
        else getNewValueFuel fuel currentValue "replace" currentVersion newVersion

/-- Entry point of the part_001 variant. -/
def getNewValue (currentValue rangeStrategy currentVersion newVersion : String) :
    Option String :=
  getNewValueFuel 2 currentValue rangeStrategy currentVersion newVersion

end PartOne

/-!
`isLessThanRange` (textually identical in both source files).  Each clause
is whitespace-stripped and split on the operator alternation
`(~=|==|!=|<=|>=|<|>|===)` keeping the separators; `slice(1)` then yields
`[op, version, ...]`.  Note that in this tokenizer `===` can never match:
`==` precedes it in the alternation and `split` does not backtrack.  The
library comparators throw on unparseable input; the outer `try`/`catch`
turns any such exception into the result `false`, modelled with `Except`.
-/

/-- JS `x.split(/(~=|==|!=|<=|>=|<|>|===)/)` on a character list: at each
position the alternatives are tried in order; matched separators are kept
as their own segments. -/
def splitClauseGo : List Char → List Char → List String
  | [], acc => [String.mk acc.reverse]
  | '~' :: '=' :: rest, acc => String.mk acc.reverse :: "~=" :: splitClauseGo rest []
  | '=' :: '=' :: rest, acc => String.mk acc.reverse :: "==" :: splitClauseGo rest []
  | '!' :: '=' :: rest, acc => String.mk acc.reverse :: "!=" :: splitClauseGo rest []
  | '<' :: '=' :: rest, acc => String.mk acc.reverse :: "<=" :: splitClauseGo rest []
  | '>' :: '=' :: rest, acc => String.mk acc.reverse :: ">=" :: splitClauseGo rest []
  | '<' :: rest, acc => String.mk acc.reverse :: "<" :: splitClauseGo rest []
  | '>' :: rest, acc => String.mk acc.reverse :: ">" :: splitClauseGo rest []
  | c :: rest, acc => splitClauseGo rest (c :: acc)

/-- One comma-separated clause of the constraint, reduced to the
`[op, version]` destructuring after `replace(/\s*/g, '')` and `slice(1)`
(`undefined` is `none`). -/
def clausePair (x : List Char) : Option String × Option String :=
  let parts := (splitClauseGo (x.filter (fun c => !c.isWhitespace)) []).drop 1
  (parts.get? 0, parts.get? 1)

/-- All clause `[op, version]` pairs of a constraint string. -/
def clausePairs (range : String) : List (Option String × Option String) :=
  (pep440.splitOnChar ',' range.data).map clausePair

/-- Library `lt` applied to possibly-missing strings: throws (errors) when
either side fails to parse, as the JS comparator does. -/
def ltE (input : String) (ver : Option String) : Except Unit Bool :=
  match pep440.parseVersion input, ver.bind pep440.parseVersion with
  | some x, some y => Except.ok (pep440.relCmp x y = Ordering.lt)
  | _, _ => Except.error ()

/-- Library `lte` on possibly-missing strings, throwing on parse failure. -/
def lteE (input : String) (ver : Option String) : Except Unit Bool :=
  match pep440.parseVersion input, ver.bind pep440.parseVersion with
  | some x, some y => Except.ok (pep440.relCmp x y ≠ Ordering.gt)
  | _, _ => Except.error ()

/-- The `results` map of `isLessThanRange` with the `invertResult` flag
threaded and exceptions propagated; returns the final flag and the clause
results in order. -/
def goClauses (input : String) :
    List (Option String × Option String) → Bool → List Bool →
    Except Unit (Bool × List Bool)
  | [], invertResult, acc => Except.ok (invertResult, acc.reverse)
  | (op, ver) :: rest, invertResult, acc =>
    if op = some "!=" ∨ op = some "<=" ∨ op = some "<" then
      goClauses input rest invertResult (true :: acc)
    else if op = some "~=" ∨ op = some "==" ∨ op = some ">=" ∨
        op = some "===" then
      match ltE input ver with
      | Except.ok b => goClauses input rest false (b :: acc)
      | Except.error e => Except.error e
    else if op = some ">" then
      match lteE input ver with
      | Except.ok b => goClauses input rest false (b :: acc)
      | Except.error e => Except.error e
    else goClauses input rest false (false :: acc)

/-- `isLessThanRange` of both source files: conjunction of the clause
results, inverted when no restrictive clause was seen; any exception gives
`false`. -/
def isLessThanRange (input range : String) : Bool :=
  match goClauses input (clausePairs range) true [] with
  | Except.error _ => false
  | Except.ok (invertResult, results) =>
    let result := results.all (fun res => res = true)
    if invertResult then !result else result

/-- Claim-side classification: a clause is restrictive unless its operator
is `!=`, `<=` or `<`. -/
def restrictiveOp (op : Option String) : Bool :=
  !(op = some "!=" ∨ op = some "<=" ∨ op = some "<")

/-- Total version of the library `lt` on possibly-missing strings (false
where the comparator would throw). -/
def ltB (input : String) (ver : Option String) : Bool :=
  match pep440.parseVersion input, ver.bind pep440.parseVersion with
  | some x, some y => pep440.relCmp x y = Ordering.lt
  | _, _ => false

/-- Total version of the library `lte` on possibly-missing strings. -/
def lteB (input : String) (ver : Option String) : Bool :=
  match pep440.parseVersion input, ver.bind pep440.parseVersion with
  | some x, some y => pep440.relCmp x y ≠ Ordering.gt
  | _, _ => false

/-- Claim-side per-clause result: `!=`/`<=`/`<` contribute true; `~=`,
`==`, `>=`, `===` contribute strictly-less; `>` contributes
less-or-equal; anything else contributes false. -/
def clauseValue (input : String) (op ver : Option String) : Bool :=
  if op = some "!=" ∨ op = some "<=" ∨ op = some "<" then true
  else if op = some "~=" ∨ op = some "==" ∨ op = some ">=" ∨
      op = some "===" then ltB input ver
  else if op = some ">" then lteB input ver
  else false

/-- Did processing this clause throw? -/
def errored (e : Except Unit (Bool × List Bool)) : Bool :=
  match e with
  | Except.error _ => true
  | Except.ok _ => false

/-- Whether evaluating this clause inside `isLessThanRange` throws (its
operator requires a comparison and that comparison's parse fails). -/
def clauseThrows (input : String) (p : Option String × Option String) : Bool :=
  if p.1 = some "!=" ∨ p.1 = some "<=" ∨ p.1 = some "<" then false
  else if p.1 = some "~=" ∨ p.1 = some "==" ∨ p.1 = some ">=" ∨
      p.1 = some "===" then
    match ltE input p.2 with
    | Except.error _ => true
    | Except.ok _ => false
  else if p.1 = some ">" then
    match lteE input p.2 with
    | Except.error _ => true
    | Except.ok _ => false
  else false

/-! ### Ordering facts about the padded positional comparison -/

theorem relCmp_self (l : List Nat) : pep440.relCmp l l = Ordering.eq := by
  induction l with
  | nil => simp [pep440.relCmp]
  | cons x xs ih => simp [pep440.relCmp, ih]

theorem relCmp_nil_swap (ys : List Nat) :
    pep440.relCmp ys [] = (pep440.relCmp [] ys).swap := by
  induction ys with
  | nil => simp [pep440.relCmp, Ordering.swap]
  | cons y ys ih =>
    rcases Nat.eq_zero_or_pos y with hy | hy
    · subst hy
      simpa [pep440.relCmp] using ih
    · have hy' : y ≠ 0 := Nat.pos_iff_ne_zero.mp hy
      simp [pep440.relCmp, hy, hy', Ordering.swap]

theorem relCmp_swap (xs : List Nat) : ∀ ys : List Nat,
    pep440.relCmp xs ys = (pep440.relCmp ys xs).swap := by
  induction xs with
  | nil =>
    intro ys
    rw [relCmp_nil_swap ys, Ordering.swap_swap]
  | cons x xs ih =>
    intro ys
    rcases ys with _ | ⟨y, ys⟩
    · rw [relCmp_nil_swap]
    · rcases Nat.lt_trichotomy x y with h | h | h
      · simp [pep440.relCmp, h, Nat.lt_asymm h, Ordering.swap]
      · subst h
        simp [pep440.relCmp, Nat.lt_irrefl, ih ys]
      · simp [pep440.relCmp, h, Nat.lt_asymm h, Ordering.swap]

theorem relCmp_gt_of_lt {xs ys : List Nat}
    (h : pep440.relCmp xs ys = Ordering.lt) :
    pep440.relCmp ys xs = Ordering.gt := by
  rw [relCmp_swap ys xs, h]
  rfl

/-! ### C2: the replace-bracket scenario -/

/-- C2 (counterexample): on `('>=1.0.0,<2.0.0', 'replace', '1.5.0',
'2.3.0')` neither embedding of `getNewValue` returns the claimed
`'>=1.0.0,<3.0.0'`. -/
theorem scenario_replace_bracket_counterexample :
    ¬(PartOne.getNewValue ">=1.0.0,<2.0.0" "replace" "1.5.0" "2.3.0" =
        some ">=1.0.0,<3.0.0") ∧
    ¬(RangeTs.getNewValue ">=1.0.0,<2.0.0" "replace" "1.5.0" "2.3.0" =
        some ">=1.0.0,<3.0.0") :=
  ⟨by decide, by decide⟩

/-- C2 (amended): on `('>=1.0.0,<2.0.0', 'replace', '1.5.0', '2.3.0')` the
part_001 `getNewValue` returns `'>=2.3.0,<3.0.0'` — the lower bound is
tightened to the new version because `replace` also rewrites `>=` clauses,
while the upper bound does advance at the inferred Major precision — and
the range.ts `getNewValue` returns `'>=1.0.0,<2.4.0'` (lower bound
preserved, upper bound from the generic step-1 synthesizer). -/
theorem scenario_replace_bracket_actual :
    PartOne.getNewValue ">=1.0.0,<2.0.0" "replace" "1.5.0" "2.3.0" =
      some ">=2.3.0,<3.0.0" ∧
    RangeTs.getNewValue ">=1.0.0,<2.0.0" "replace" "1.5.0" "2.3.0" =
      some ">=1.0.0,<2.4.0" :=
  ⟨by decide, by decide⟩

/-! ### C8: isLessThanRange never propagates an exception -/

/-- C8: `isLessThanRange` swallows any exception of the tokenizing or
comparison phase (an internal `Except.error`) and returns `false`, and it
returns `false` on the empty/unconstrained constraint string, for every
input version. -/
theorem isLessThanRange_error_handling (input range : String) :
    (errored (goClauses input (clausePairs range) true []) = true →
      isLessThanRange input range = false) ∧
    isLessThanRange input "" = false := by
  constructor
  · intro h
    unfold isLessThanRange
    rcases hg : goClauses input (clausePairs range) true [] with e | p
    · rfl
    · rw [hg] at h
      simp [errored] at h
  · rfl

/-- C8 (witness): a constraint whose comparison throws (`>=foo`) yields
`false`, and the empty constraint yields `false`. -/
theorem isLessThanRange_error_handling_witness :
    isLessThanRange "1.0.0" ">=foo" = false ∧
    isLessThanRange "1.0.0" "" = false :=
  ⟨(isLessThanRange_error_handling "1.0.0" ">=foo").1 (by decide),
   (isLessThanRange_error_handling "1.0.0" "x").2⟩

/-! ### Counterexamples for C1, C3 and C10 -/

/-- C1 (counterexample): when `currentValue` textually equals
`currentVersion`, both embeddings return the bare `newVersion` string,
which is not an operator-clause specifier and therefore is not satisfied
under the pep440 satisfaction predicate. -/
theorem getNewValue_bare_version_counterexample :
    RangeTs.getNewValue "1.0.0" "replace" "1.0.0" "2.0.0" = some "2.0.0" ∧
    PartOne.getNewValue "1.0.0" "replace" "1.0.0" "2.0.0" = some "2.0.0" ∧
    pep440.satisfies "2.0.0" "2.0.0" = false :=
  ⟨by decide, by decide, by decide⟩

/-- C3 (counterexample): `getFutureVersion` is not strictly greater than
both inputs for every base, target and step: with step 0 the result can
equal the target (`1.2`/`1.4.0` ↦ `1.4`), and with a target below the base
the result can equal the base (`3`/`2.9` ↦ `3`). -/
theorem futureVersion_not_always_greater :
    (RangeTs.getFutureVersion "1.2" "1.4.0" 0 = "1.4" ∧
      pep440.relCmp (pep440.releaseOf "1.4") (pep440.releaseOf "1.4.0") ≠
        Ordering.gt) ∧
    (RangeTs.getFutureVersion "3" "2.9" 1 = "3" ∧
      pep440.relCmp (pep440.releaseOf "3") (pep440.releaseOf "3") ≠
        Ordering.gt) :=
  ⟨⟨by decide, by decide⟩, ⟨by decide, by decide⟩⟩

/-- C10 (counterexample): the two `getFutureVersion` embeddings disagree:
on base `1.0.5`, target `1.2.7`, step 1 the range.ts variant keeps the
component after the advance point (`1.3.7`) while the part_001 variant
zero-fills it (`1.3.0`). -/
theorem futureVersion_variants_differ :
    RangeTs.getFutureVersion "1.0.5" "1.2.7" 1 = "1.3.7" ∧
    PartOne.getFutureVersion "1.0.5" "1.2.7" 1 = "1.3.0" ∧
    ("1.3.7" : String) ≠ "1.3.0" :=
  ⟨by decide, by decide, by decide⟩

/-! ### C6: the already-satisfied no-op -/

/-- C6 (counterexample): when the caller passes a `currentVersion` that
textually equals the constraint, `getNewValue` returns the bare new
version rather than the (satisfied, parseable) constraint unchanged. -/
theorem auto_noop_counterexample :
    pep440.satisfies "1.0.0" "==1.0.0" = true ∧
    pep440.parseRange "==1.0.0" ≠ none ∧
    RangeTs.getNewValue "==1.0.0" "auto" "==1.0.0" "1.0.0" = some "1.0.0" ∧
    some "1.0.0" ≠ some (α := String) "==1.0.0" :=
  ⟨by decide, by decide, by decide, by decide⟩

/-- C6 (amended): for every constraint `c` satisfied by the new version
`v`, and every `currentVersion` not textually equal to `c`, both
embeddings of `getNewValue` return `c` unchanged under strategy `auto` and
under strategy `replace`. -/
theorem auto_noop_amended (c cv v : String)
    (hsat : pep440.satisfies v c = true) (hne : c ≠ cv) :
    RangeTs.getNewValue c "auto" cv v = some c ∧
    RangeTs.getNewValue c "replace" cv v = some c ∧
    PartOne.getNewValue c "auto" cv v = some c ∧
    PartOne.getNewValue c "replace" cv v = some c := by
  have hv : ∃ vts, pep440.parseVersion v = some vts := by
    unfold pep440.satisfies at hsat
    rcases h1 : pep440.parseVersion v with _ | vts
    · rw [h1] at hsat
      simp at hsat
    · exact ⟨vts, rfl⟩
  have hr : ∃ rs, pep440.parseRange c = some rs := by
    unfold pep440.satisfies at hsat
    obtain ⟨vts, h1⟩ := hv
    rcases h2 : pep440.parseRange c with _ | rs
    · rw [h1, h2] at hsat
      simp at hsat
    · exact ⟨rs, rfl⟩
  obtain ⟨rs, hrs⟩ := hr
  have h1 :
      ∀ s : String, s = "auto" ∨ s = "replace" →
        RangeTs.getNewValue c s cv v = some c := by
    intro s hs
    have hpin : ¬s = "pin" := by
      rcases hs with h | h <;> subst h <;> decide
    unfold RangeTs.getNewValue RangeTs.getNewValueFuel
    rw [if_neg hpin, if_neg hne, hrs]
    rcases rs with _ | ⟨r0, rs'⟩
    · simp
    · simp [hs, hsat]
  have h2 :
      ∀ s : String, s = "auto" ∨ s = "replace" →
        PartOne.getNewValue c s cv v = some c := by
    intro s hs
    have hpin : ¬s = "pin" := by
      rcases hs with h | h <;> subst h <;> decide
    unfold PartOne.getNewValue PartOne.getNewValueFuel
    rw [if_neg hpin, if_neg hne, hrs]
    rcases rs with _ | ⟨r0, rs'⟩
    · simp
    · simp [hs, hsat]
  exact ⟨h1 "auto" (Or.inl rfl), h1 "replace" (Or.inr rfl),
    h2 "auto" (Or.inl rfl), h2 "replace" (Or.inr rfl)⟩

/-- C6 (witness): `>=1.0.0,<3.0.0` is satisfied by `2.3.0` and comes back
unchanged under both strategies in both embeddings. -/
theorem auto_noop_witness :
    RangeTs.getNewValue ">=1.0.0,<3.0.0" "auto" "1.0.0" "2.3.0" =
      some ">=1.0.0,<3.0.0" ∧
    PartOne.getNewValue ">=1.0.0,<3.0.0" "replace" "1.0.0" "2.3.0" =
      some ">=1.0.0,<3.0.0" :=
  ⟨(auto_noop_amended ">=1.0.0,<3.0.0" "1.0.0" "2.3.0" (by decide)
      (by decide)).1,
   (auto_noop_amended ">=1.0.0,<3.0.0" "1.0.0" "2.3.0" (by decide)
      (by decide)).2.2.2⟩

/-! ### Character-level parsing lemmas (for the pin-path of C1) -/

theorem mk_data (s : String) : String.mk s.data = s := by
  cases s
  rfl

theorem splitOnChar_cons (sep a : Char) (l : List Char) :
    pep440.splitOnChar sep (a :: l) =
      match pep440.splitOnChar sep l with
      | [] => if a = sep then [[], []] else [[a]]
      | p :: ps => if a = sep then [] :: p :: ps else (a :: p) :: ps := rfl

theorem splitOnChar_cons_eq {sep a : Char} {l p : List Char}
    {ps : List (List Char)} (hsp : pep440.splitOnChar sep l = p :: ps) :
    pep440.splitOnChar sep (a :: l) =
      if a = sep then [] :: p :: ps else (a :: p) :: ps := by
  rw [splitOnChar_cons, hsp]

theorem splitOnChar_ne_nil (sep : Char) (cs : List Char) :
    pep440.splitOnChar sep cs ≠ [] := by
  cases cs with
  | nil => simp [pep440.splitOnChar]
  | cons a l =>
    rcases hsp : pep440.splitOnChar sep l with _ | ⟨p, ps⟩
    · rw [splitOnChar_cons, hsp]
      split <;> split <;> simp
    · rw [splitOnChar_cons_eq hsp]
      split <;> simp

theorem mem_splitOnChar {sep : Char} {cs : List Char} {c : Char} (h : c ∈ cs) :
    c = sep ∨ ∃ p ∈ pep440.splitOnChar sep cs, c ∈ p := by
  induction cs with
  | nil => cases h
  | cons a l ih =>
    rcases hsp : pep440.splitOnChar sep l with _ | ⟨p, ps⟩
    · exact absurd hsp (splitOnChar_ne_nil sep l)
    · rcases List.mem_cons.mp h with rfl | hmem
      · by_cases ha : c = sep
        · exact Or.inl ha
        · refine Or.inr ⟨c :: p, ?_, List.mem_cons_self _ _⟩
          rw [splitOnChar_cons_eq hsp, if_neg ha]
          exact List.mem_cons_self _ _
      · rcases ih hmem with h1 | ⟨q, hq, hcq⟩
        · exact Or.inl h1
        · rw [hsp] at hq
          by_cases ha : a = sep
          · refine Or.inr ⟨q, ?_, hcq⟩
            rw [splitOnChar_cons_eq hsp, if_pos ha]
            exact List.mem_cons_of_mem _ hq
          · rcases List.mem_cons.mp hq with rfl | hqs
            · refine Or.inr ⟨a :: q, ?_, List.mem_cons_of_mem _ hcq⟩
              rw [splitOnChar_cons_eq hsp, if_neg ha]
              exact List.mem_cons_self _ _
            · refine Or.inr ⟨q, ?_, hcq⟩
              rw [splitOnChar_cons_eq hsp, if_neg ha]
              exact List.mem_cons_of_mem _ hqs

theorem splitOnChar_eq_single {sep : Char} {cs : List Char}
    (h : ∀ c ∈ cs, ¬c = sep) : pep440.splitOnChar sep cs = [cs] := by
  induction cs with
  | nil => rfl
  | cons a l ih =>
    rw [splitOnChar_cons_eq (ih (fun c hc => h c (List.mem_cons_of_mem a hc))),
      if_neg (h a (List.mem_cons_self a l))]

theorem parseDotted_all {cs : List Char} {ts : List Nat}
    (h : pep440.parseDotted cs = some ts) :
    ∀ p ∈ pep440.splitOnChar '.' cs,
      p ≠ [] ∧ ∀ c ∈ p, c.isDigit = true := by
  simp only [pep440.parseDotted] at h
  split at h
  · next hcond =>
    intro p hp
    have hp2 := List.all_eq_true.mp hcond p hp
    simp only [Bool.and_eq_true, Bool.not_eq_true', List.isEmpty_eq_false,
      List.all_eq_true] at hp2
    exact ⟨hp2.1, hp2.2⟩
  · cases h

theorem parseDotted_head_digit {c : Char} {cs : List Char} {ts : List Nat}
    (h : pep440.parseDotted (c :: cs) = some ts) : c.isDigit = true := by
  have hall := parseDotted_all h
  rcases hsp : pep440.splitOnChar '.' cs with _ | ⟨p, ps⟩
  · exact absurd hsp (splitOnChar_ne_nil '.' cs)
  · by_cases hc : c = '.'
    · have h0 : ([] : List Char) ∈ pep440.splitOnChar '.' (c :: cs) := by
        rw [splitOnChar_cons_eq hsp, if_pos hc]
        exact List.mem_cons_self _ _
      exact absurd rfl (hall _ h0).1
    · have h0 : (c :: p) ∈ pep440.splitOnChar '.' (c :: cs) := by
        rw [splitOnChar_cons_eq hsp, if_neg hc]
        exact List.mem_cons_self _ _
      exact (hall _ h0).2 c (List.mem_cons_self _ _)

theorem parseVersion_chars {v : String} {ts : List Nat}
    (h : pep440.parseVersion v = some ts) :
    ∀ c ∈ v.data, c.isDigit = true ∨ c = '.' := by
  intro c hc
  rcases @mem_splitOnChar '.' v.data c hc with h1 | ⟨p, hp, hcp⟩
  · exact Or.inr h1
  · exact Or.inl ((parseDotted_all h _ hp).2 c hcp)

theorem parseVersion_ne_nil {v : String} {ts : List Nat}
    (h : pep440.parseVersion v = some ts) : v.data ≠ [] := by
  intro hnil
  unfold pep440.parseVersion at h
  rw [hnil] at h
  simp [pep440.parseDotted, pep440.splitOnChar] at h

theorem isDigit_not_ws {c : Char} (h : c.isDigit = true) :
    c.isWhitespace = false := by
  have h1 : ¬c = ' ' := by rintro rfl; exact absurd h (by decide)
  have h2 : ¬c = '\t' := by rintro rfl; exact absurd h (by decide)
  have h3 : ¬c = '\r' := by rintro rfl; exact absurd h (by decide)
  have h4 : ¬c = '\n' := by rintro rfl; exact absurd h (by decide)
  simp [Char.isWhitespace, h1, h2, h3, h4]

theorem isDigit_ne_of {c d : Char} (h : c.isDigit = true)
    (hd : d.isDigit = false) : ¬c = d := by
  rintro rfl
  rw [h] at hd
  cases hd

theorem trimWs_eq_self {cs : List Char}
    (h : ∀ c ∈ cs, c.isWhitespace = false) : pep440.trimWs cs = cs := by
  have h1 : cs.dropWhile Char.isWhitespace = cs := by
    cases cs with
    | nil => rfl
    | cons a l =>
      rw [List.dropWhile_cons_of_neg]
      simp [h a (List.mem_cons_self a l)]
  have h2 : cs.reverse.dropWhile Char.isWhitespace = cs.reverse := by
    rcases hrev : cs.reverse with _ | ⟨a, l⟩
    · rfl
    · rw [List.dropWhile_cons_of_neg]
      have ha : a ∈ cs := by
        rw [← List.mem_reverse, hrev]
        exact List.mem_cons_self _ _
      simp [h a ha]
  unfold pep440.trimWs
  rw [h1, h2, List.reverse_reverse]

theorem dropWildcard_eq_none {cs : List Char}
    (h : ∀ c ∈ cs, c.isDigit = true ∨ c = '.') :
    pep440.dropWildcard cs = none := by
  unfold pep440.dropWildcard
  rcases hrev : cs.reverse with _ | ⟨a, l⟩
  · rfl
  · have ha : a ∈ cs := by
      rw [← List.mem_reverse, hrev]
      exact List.mem_cons_self _ _
    have hstar : ¬a = '*' := by
      rcases h a ha with hd | hdot
      · exact isDigit_ne_of hd (by decide)
      · subst hdot; decide
    split
    · next core heq =>
      injection heq with h1 _
      exact absurd h1 hstar
    · rfl

theorem matchSpecOp_eqeq {cs : List Char}
    (h : ∀ c ∈ cs, c.isDigit = true ∨ c = '.') (hne : cs ≠ []) :
    pep440.matchSpecOp ('=' :: '=' :: cs) = some ("==", cs) := by
  rcases cs with _ | ⟨c0, rest⟩
  · exact absurd rfl hne
  · have hc0 : ¬c0 = '=' := by
      rcases h c0 (List.mem_cons_self _ _) with hd | hd
      · exact isDigit_ne_of hd (by decide)
      · subst hd; decide
    unfold pep440.matchSpecOp
    split
    · next heq =>
      injection heq with _ heq2
      injection heq2 with _ heq3
      injection heq3 with h3 _
      exact absurd h3 hc0
    · next heq => injection heq with h1 _; cases h1
    · next heq =>
      injection heq with _ heq2
      injection heq2 with _ heq3
      rw [heq3]
    · next heq => injection heq with h1 _; cases h1
    · next heq => injection heq with h1 _; cases h1
    · next heq => injection heq with h1 _; cases h1
    · next heq => injection heq with h1 _; cases h1
    · next heq => injection heq with h1 _; cases h1
    · next h1 h2 h3 h4 h5 h6 h7 h8 => exact absurd (h3 (c0 :: rest) rfl) not_false

theorem parseClauseL_pin {v : String} {ts : List Nat}
    (h : pep440.parseVersion v = some ts) :
    pep440.parseClauseL ('=' :: '=' :: v.data) = some ⟨"==", v, false⟩ := by
  have hchars := parseVersion_chars h
  have hne := parseVersion_ne_nil h
  have hnws : ∀ c ∈ v.data, c.isWhitespace = false := by
    intro c hc
    rcases hchars c hc with hd | hdot
    · exact isDigit_not_ws hd
    · subst hdot; decide
  have hnws2 : ∀ c ∈ ('=' :: '=' :: v.data), c.isWhitespace = false := by
    intro c hc
    rcases List.mem_cons.mp hc with rfl | hc
    · decide
    · rcases List.mem_cons.mp hc with rfl | hc
      · decide
      · exact hnws c hc
  have hpd : pep440.parseDotted v.data = some ts := h
  unfold pep440.parseClauseL
  rw [trimWs_eq_self hnws2, matchSpecOp_eqeq hchars hne]
  simp only [trimWs_eq_self hnws, dropWildcard_eq_none hchars, hpd, mk_data]
  rfl

theorem parseRange_pin {v : String} {ts : List Nat}
    (h : pep440.parseVersion v = some ts) :
    pep440.parseRange ("==" ++ v) = some [⟨"==", v, false⟩] := by
  have hchars := parseVersion_chars h
  have hdata : ("==" ++ v).data = '=' :: '=' :: v.data := by
    rw [String.data_append]
    rfl
  unfold pep440.parseRange
  rw [hdata]
  have hless : (('=' :: '=' :: v.data).all Char.isWhitespace) ≠ true := by
    simp [List.all_cons]
  rw [if_neg hless]
  have hsingle : pep440.splitOnChar ',' ('=' :: '=' :: v.data) =
      [('=' :: '=' :: v.data)] := by
    apply splitOnChar_eq_single
    intro c hc
    rcases List.mem_cons.mp hc with rfl | hc
    · decide
    · rcases List.mem_cons.mp hc with rfl | hc
      · decide
      · rcases hchars c hc with hd | hdot
        · exact isDigit_ne_of hd (by decide)
        · subst hdot; decide
  rw [hsingle]
  simp [pep440.mapOpt, parseClauseL_pin h]

theorem satisfies_pin {v : String} {ts : List Nat}
    (h : pep440.parseVersion v = some ts) :
    pep440.satisfies v ("==" ++ v) = true := by
  unfold pep440.satisfies
  rw [h, parseRange_pin h]
  have hrel : pep440.releaseOf v = ts := by
    unfold pep440.releaseOf
    rw [h]
    rfl
  have heval : pep440.evalClause ts v ⟨"==", v, false⟩ = true := by
    unfold pep440.evalClause
    simp only [hrel]
    simp [relCmp_self]
  simp [heval]

theorem satisfies_of_empty {v c : String} {ts : List Nat}
    (hv : pep440.parseVersion v = some ts)
    (hc : pep440.parseRange c = some []) : pep440.satisfies v c = true := by
  unfold pep440.satisfies
  rw [hv, hc]
  rfl

/-! ### C1: every non-null result is re-validated -/

theorem ite_some_satisfies {v R res : String}
    (h : (if pep440.satisfies v R = true then some R else none) = some res) :
    pep440.satisfies v res = true := by
  split at h
  · next hfin =>
    cases h
    exact hfin
  · cases h

theorem rangeTs_fuel_satisfies :
    ∀ (fuel : Nat) (cv strat curV newV res : String),
    (pep440.parseVersion newV).isSome = true → ¬cv = curV →
    RangeTs.getNewValueFuel fuel cv strat curV newV = some res →
    pep440.satisfies newV res = true := by
  intro fuel
  induction fuel with
  | zero =>
    intro cv strat curV newV res hv hne hres
    simp [RangeTs.getNewValueFuel] at hres
  | succ fuel ih =>
    intro cv strat curV newV res hv hne hres
    obtain ⟨ts, hts⟩ := Option.isSome_iff_exists.mp hv
    simp only [RangeTs.getNewValueFuel] at hres
    by_cases hpin : strat = "pin"
    · rw [if_pos hpin] at hres
      cases hres
      exact satisfies_pin hts
    rw [if_neg hpin, if_neg hne] at hres
    rcases hr : pep440.parseRange cv with _ | ranges
    · simp only [hr] at hres
      exact Option.noConfusion hres
    · simp only [hr] at hres
      by_cases hempty : ranges.isEmpty = true
      · rw [if_pos hempty] at hres
        cases hres
        exact satisfies_of_empty hts (by rw [hr, List.isEmpty_iff.mp hempty])
      rw [if_neg hempty] at hres
      by_cases hshort :
          (strat = "auto" ∨ strat = "replace") ∧ pep440.satisfies newV cv = true
      · rw [if_pos hshort] at hres
        cases hres
        exact hshort.2
      rw [if_neg hshort] at hres
      by_cases hacc : strat = "replace" ∨ strat = "bump"
      · rw [if_pos hacc] at hres
        by_cases heee : ranges.any (fun r => r.operator = "===") = true
        · rw [if_pos heee] at hres
          cases hres
        · rw [if_neg heee] at hres
          exact ite_some_satisfies hres
      · rw [if_neg hacc] at hres
        exact ih cv "replace" curV newV res hv hne hres

theorem partOne_fuel_satisfies :
    ∀ (fuel : Nat) (cv strat curV newV res : String),
    (pep440.parseVersion newV).isSome = true → ¬cv = curV →
    PartOne.getNewValueFuel fuel cv strat curV newV = some res →
    pep440.satisfies newV res = true := by
  intro fuel
  induction fuel with
  | zero =>
    intro cv strat curV newV res hv hne hres
    simp [PartOne.getNewValueFuel] at hres
  | succ fuel ih =>
    intro cv strat curV newV res hv hne hres
    obtain ⟨ts, hts⟩ := Option.isSome_iff_exists.mp hv
    simp only [PartOne.getNewValueFuel] at hres
    by_cases hpin : strat = "pin"
    · rw [if_pos hpin] at hres
      cases hres
      exact satisfies_pin hts
    rw [if_neg hpin, if_neg hne] at hres
    rcases hr : pep440.parseRange cv with _ | ranges
    · simp only [hr] at hres
      exact Option.noConfusion hres
    · simp only [hr] at hres
      by_cases hempty : ranges.isEmpty = true
      · rw [if_pos hempty] at hres
        cases hres
        exact satisfies_of_empty hts (by rw [hr, List.isEmpty_iff.mp hempty])
      rw [if_neg hempty] at hres
      by_cases hshort :
          (strat = "auto" ∨ strat = "replace") ∧ pep440.satisfies newV cv = true
      · rw [if_pos hshort] at hres
        cases hres
        exact hshort.2
      rw [if_neg hshort] at hres
      by_cases hacc : strat = "replace" ∨ strat = "bump" ∨ strat = "widen"
      · rw [if_pos hacc] at hres
        by_cases heee : ranges.any (fun r => r.operator = "===") = true
        · rw [if_pos heee] at hres
          cases hres
        · rw [if_neg heee] at hres
          exact ite_some_satisfies hres
      · rw [if_neg hacc] at hres
        exact ih cv "replace" curV newV res hv hne hres

/-- C1 (amended): whenever `newVersion` is a valid pep440 version and
`currentValue` is not textually equal to `currentVersion`, every non-null
result of `getNewValue` (in either embedding, on every return path —
pin, empty clause sequence, already-satisfied shortcut, strategy fallback
and the re-validated rewrite path) is satisfied by the new version.  The
excluded path returns the bare `newVersion` string, which is not a
specifier (see the counterexample). -/
theorem getNewValue_nonnull_satisfies_amended
    (cv strat curV newV res : String)
    (hv : (pep440.parseVersion newV).isSome = true) (hne : ¬cv = curV) :
    (RangeTs.getNewValue cv strat curV newV = some res →
      pep440.satisfies newV res = true) ∧
    (PartOne.getNewValue cv strat curV newV = some res →
      pep440.satisfies newV res = true) :=
  ⟨fun h => rangeTs_fuel_satisfies 2 cv strat curV newV res hv hne h,
   fun h => partOne_fuel_satisfies 2 cv strat curV newV res hv hne h⟩

/-- C1 (witness): a concrete run through the already-satisfied shortcut. -/
theorem getNewValue_nonnull_satisfies_witness :
    pep440.satisfies "2.0.0" ">=1.0.0" = true :=
  (getNewValue_nonnull_satisfies_amended ">=1.0.0" "replace" "1.0.0" "2.0.0"
    ">=1.0.0" (by decide) (by decide)).1 (by decide)

/-! ### C4: rewriting of `>=` clauses below the new version -/

/-- C4 (counterexample): in the range.ts rewriter, strategy `replace` does
not tighten a `>=` clause whose version is strictly below the new version;
the clause comes back unchanged. -/
theorem ge_clause_replace_counterexample :
    pep440.lt "1.0.0" "2.0.0" = true ∧
    RangeTs.rewriteClause "replace" "2.0.0" ⟨">=", "1.0.0", false⟩ =
      some ">=1.0.0" ∧
    some ">=1.0.0" ≠ some (α := String) ">=2.0.0" :=
  ⟨by decide, by decide, by decide⟩

/-- C4 (amended): for a `>=` clause whose version is strictly below the
new version — in the part_001 rewriter, strategies `replace` and `bump`
emit `>=newVersion` and the remaining accepted strategy `widen` emits the
clause unchanged; in the range.ts rewriter only `bump` tightens, while
`replace` (the only other strategy its rewriter can receive) leaves the
clause unchanged. -/
theorem ge_clause_tighten_amended (ranges : List pep440.Range)
    (strat newV : String) (r : pep440.Range)
    (hop : r.operator = ">=") (hlt : pep440.lt r.version newV = true) :
    ((strat = "replace" ∨ strat = "bump") →
      PartOne.rewriteClause ranges strat newV r = some (">=" ++ newV)) ∧
    (strat = "widen" →
      PartOne.rewriteClause ranges strat newV r = some (">=" ++ r.version)) ∧
    (strat = "bump" →
      RangeTs.rewriteClause strat newV r = some (">=" ++ newV)) ∧
    (strat = "replace" →
      RangeTs.rewriteClause strat newV r = some (">=" ++ r.version)) := by
  have hlte : pep440.lte newV r.version = false := by
    unfold pep440.lt at hlt
    unfold pep440.lte
    rcases h1 : pep440.parseVersion r.version with _ | x
    case none =>
      rw [h1] at hlt
      simp at hlt
    case some =>
      rw [h1] at hlt
      rcases h2 : pep440.parseVersion newV with _ | y
      case none => rw [h2] at hlt
      case some =>
        rw [h2] at hlt
        have hxy : pep440.relCmp x y = Ordering.lt := of_decide_eq_true hlt
        show (decide (pep440.relCmp y x ≠ Ordering.gt)) = false
        rw [relCmp_gt_of_lt hxy]
        simp
  refine ⟨?_, ?_, ?_, ?_⟩
  · intro hs
    unfold PartOne.rewriteClause
    rw [if_neg (by rw [hop]; decide), if_pos (Or.inr hop), if_neg (by rw [hlte]; simp),
      if_pos ⟨hs, hop⟩, hop]
  · intro hs
    subst hs
    unfold PartOne.rewriteClause
    rw [if_neg (by rw [hop]; decide), if_pos (Or.inr hop), if_neg (by rw [hlte]; simp),
      if_neg (by rw [hop]; simp), hop]
  · intro hs
    unfold RangeTs.rewriteClause
    rw [if_neg (by rw [hop]; decide), if_pos (Or.inr hop), if_neg (by rw [hlte]; simp),
      if_pos ⟨hs, hop⟩, hop]
  · intro hs
    subst hs
    unfold RangeTs.rewriteClause
    rw [if_neg (by rw [hop]; decide), if_pos (Or.inr hop), if_neg (by rw [hlte]; simp),
      if_neg (by rw [hop]; simp), hop]

/-- C4 (witness): `>=1.0.0` with new version `2.0.0` is tightened under
`replace` in part_001 and under `bump` in range.ts. -/
theorem ge_clause_tighten_witness :
    PartOne.rewriteClause [] "replace" "2.0.0" ⟨">=", "1.0.0", false⟩ =
      some (">=" ++ "2.0.0") ∧
    RangeTs.rewriteClause "bump" "2.0.0" ⟨">=", "1.0.0", false⟩ =
      some (">=" ++ "2.0.0") :=
  ⟨(ge_clause_tighten_amended [] "replace" "2.0.0" ⟨">=", "1.0.0", false⟩ rfl
      (by decide)).1 (Or.inl rfl),
   (ge_clause_tighten_amended [] "bump" "2.0.0" ⟨">=", "1.0.0", false⟩ rfl
      (by decide)).2.2.1 rfl⟩

/-! ### C9: clause rewriting preserves order, drops only the
unclassifiable, and keeps exclusions verbatim -/

theorem filterMap_eq_map_filter {α β : Type} (f : α → Option β) (dflt : β) :
    ∀ l : List α,
      l.filterMap f =
        (l.filter (fun a => (f a).isSome)).map (fun a => (f a).getD dflt) := by
  intro l
  induction l with
  | nil => rfl
  | cons a l ih =>
    rcases h : f a with _ | b <;>
      simp [List.filterMap_cons, List.filter_cons, h, ih]

/-- C9: for any strategy, new version and clause list, in both embeddings
the emitted clause texts are the order-preserving image of exactly those
clauses the rule table classifies (`filterMap` = `map` after `filter`), a
clause maps to `none` (is dropped) only when its operator is outside the
rule table and it carries no wildcard, and every `!=` clause is re-emitted
verbatim as its original operator and version text. -/
theorem rewrite_order_preservation (strat newV : String)
    (ranges0 : List pep440.Range) :
    (∀ ranges : List pep440.Range,
      ranges.filterMap (RangeTs.rewriteClause strat newV) =
        (ranges.filter (fun r => (RangeTs.rewriteClause strat newV r).isSome)).map
          (fun r => (RangeTs.rewriteClause strat newV r).getD "")) ∧
    (∀ r : pep440.Range, RangeTs.rewriteClause strat newV r = none →
      r.operator ∉ ["!=", ">", ">=", "<", "==", "~=", "<="] ∧
        r.wildcard = false) ∧
    (∀ r : pep440.Range, r.operator = "!=" →
      RangeTs.rewriteClause strat newV r = some (r.operator ++ r.version)) ∧
    (∀ ranges : List pep440.Range,
      ranges.filterMap (PartOne.rewriteClause ranges0 strat newV) =
        (ranges.filter
            (fun r => (PartOne.rewriteClause ranges0 strat newV r).isSome)).map
          (fun r => (PartOne.rewriteClause ranges0 strat newV r).getD "")) ∧
    (∀ r : pep440.Range, PartOne.rewriteClause ranges0 strat newV r = none →
      r.operator ∉ ["!=", ">", ">=", "<", "==", "~=", "<="] ∧
        r.wildcard = false) ∧
    (∀ r : pep440.Range, r.operator = "!=" →
      PartOne.rewriteClause ranges0 strat newV r =
        some (r.operator ++ r.version)) := by
  refine ⟨fun ranges => filterMap_eq_map_filter _ "" ranges, ?_, ?_,
    fun ranges => filterMap_eq_map_filter _ "" ranges, ?_, ?_⟩
  · intro r h
    unfold RangeTs.rewriteClause at h
    split_ifs at h with h1 h2 h3 h4 h5 h6 h7 h8
    all_goals
      first
        | exact Option.noConfusion h
        | (refine ⟨fun hmem => ?_, by simp_all⟩
           simp only [List.mem_cons, List.not_mem_nil, or_false] at hmem
           tauto)
  · intro r h
    unfold RangeTs.rewriteClause
    rw [if_pos h, h]
  · intro r h
    unfold PartOne.rewriteClause at h
    split_ifs at h with h1 h2 h3 h4 h5 h6 h7 h8 h9 <;>
      first
        | exact Option.noConfusion h
        | (rcases hp : PartOne.getUserReplacePrecision ranges0 with _ | p <;>
            rw [hp] at h <;> exact Option.noConfusion h)
        | (refine ⟨fun hmem => ?_, by simp_all⟩
           simp only [List.mem_cons, List.not_mem_nil, or_false] at hmem
           tauto)
  · intro r h
    unfold PartOne.rewriteClause
    rw [if_pos h, h]

/-- C9 (witness): a `!=` clause re-emitted verbatim, and a clause with an
operator outside the table mapped to `none`. -/
theorem rewrite_order_preservation_witness :
    RangeTs.rewriteClause "replace" "2.0.0" ⟨"!=", "1.3", false⟩ =
      some ("!=" ++ "1.3") ∧
    (⟨"@@", "1.0", false⟩ : pep440.Range).operator ∉
      ["!=", ">", ">=", "<", "==", "~=", "<="] :=
  ⟨(rewrite_order_preservation "replace" "2.0.0" []).2.2.1 ⟨"!=", "1.3", false⟩
      rfl,
   ((rewrite_order_preservation "replace" "2.0.0" []).2.1 ⟨"@@", "1.0", false⟩
      (by decide)).1⟩

/-! ### C7: the clause table of isLessThanRange -/

theorem ltE_cases (input : String) (ver : Option String) :
    ltE input ver = Except.ok (ltB input ver) ∨
    (ltE input ver = Except.error () ∧ ltB input ver = false) := by
  unfold ltE ltB
  rcases pep440.parseVersion input with _ | x
  · exact Or.inr ⟨rfl, rfl⟩
  · rcases ver.bind pep440.parseVersion with _ | y
    · exact Or.inr ⟨rfl, rfl⟩
    · exact Or.inl rfl

theorem lteE_cases (input : String) (ver : Option String) :
    lteE input ver = Except.ok (lteB input ver) ∨
    (lteE input ver = Except.error () ∧ lteB input ver = false) := by
  unfold lteE lteB
  rcases pep440.parseVersion input with _ | x
  · exact Or.inr ⟨rfl, rfl⟩
  · rcases ver.bind pep440.parseVersion with _ | y
    · exact Or.inr ⟨rfl, rfl⟩
    · exact Or.inl rfl

theorem all_map_id {α : Type} (l : List α) (f : α → Bool) :
    (l.map f).all (fun res => res) = l.all f := by
  induction l with
  | nil => rfl
  | cons a l ih => simp [List.all_cons, ih]

theorem all_map_eq_true {α : Type} (l : List α) (f : α → Bool) :
    (l.map f).all (fun res => res = true) = l.all f := by
  have hfun : (fun res : Bool => decide (res = true)) =
      (fun res : Bool => res) := by
    funext res
    cases res <;> rfl
  show (l.map f).all (fun res => decide (res = true)) = l.all f
  rw [hfun, all_map_id]

theorem all_not_any {α : Type} (l : List α) (f : α → Bool) :
    l.all (fun a => !f a) = !(l.any f) := by
  induction l with
  | nil => rfl
  | cons a l ih => simp [List.all_cons, List.any_cons, ih]

theorem goClauses_split (input : String) :
    ∀ (ps : List (Option String × Option String)) (invert : Bool)
      (acc : List Bool),
      (goClauses input ps invert acc = Except.error () ∧
        ∃ p ∈ ps, clauseThrows input p = true) ∨
      goClauses input ps invert acc =
        Except.ok (invert && ps.all (fun p => !restrictiveOp p.1),
          acc.reverse ++ ps.map (fun p => clauseValue input p.1 p.2)) := by
  intro ps
  induction ps with
  | nil =>
    intro invert acc
    right
    simp [goClauses]
  | cons p rest ih =>
    intro invert acc
    obtain ⟨op, ver⟩ := p
    by_cases h1 : op = some "!=" ∨ op = some "<=" ∨ op = some "<"
    · have hgo : goClauses input ((op, ver) :: rest) invert acc =
          goClauses input rest invert (true :: acc) := by
        simp only [goClauses]
        rw [if_pos h1]
      rcases ih invert (true :: acc) with ⟨herr, q, hq, hthrow⟩ | hok
      · exact Or.inl ⟨by rw [hgo]; exact herr, q,
          List.mem_cons_of_mem _ hq, hthrow⟩
      · right
        have hro : restrictiveOp op = false := by simp [restrictiveOp, h1]
        have hcv : clauseValue input op ver = true := by
          simp [clauseValue, h1]
        rw [hgo, hok]
        simp only [List.all_cons, List.map_cons, hro, hcv,
          List.reverse_cons, List.append_assoc, List.singleton_append,
          Bool.not_false, Bool.true_and]
    · by_cases h2 : op = some "~=" ∨ op = some "==" ∨ op = some ">=" ∨
          op = some "==="
      · rcases ltE_cases input ver with hE | ⟨hE, hBv⟩
        · have hgo : goClauses input ((op, ver) :: rest) invert acc =
              goClauses input rest false (ltB input ver :: acc) := by
            simp only [goClauses]
            rw [if_neg h1, if_pos h2, hE]
          rcases ih false (ltB input ver :: acc) with
            ⟨herr, q, hq, hthrow⟩ | hok
          · exact Or.inl ⟨by rw [hgo]; exact herr, q,
              List.mem_cons_of_mem _ hq, hthrow⟩
          · right
            have hro : restrictiveOp op = true := by simp [restrictiveOp, h1]
            have hcv : clauseValue input op ver = ltB input ver := by
              simp [clauseValue, h1, h2]
            rw [hgo, hok]
            simp only [List.all_cons, List.map_cons, hro, hcv,
              List.reverse_cons, List.append_assoc, List.singleton_append,
              Bool.not_true, Bool.false_and, Bool.and_false]
        · refine Or.inl ⟨?_, (op, ver), List.mem_cons_self _ _, ?_⟩
          · simp only [goClauses]
            rw [if_neg h1, if_pos h2, hE]
          · simp [clauseThrows, h1, h2, hE]
      · by_cases h3 : op = some ">"
        · rcases lteE_cases input ver with hE | ⟨hE, hBv⟩
          · have hgo : goClauses input ((op, ver) :: rest) invert acc =
                goClauses input rest false (lteB input ver :: acc) := by
              simp only [goClauses]
              rw [if_neg h1, if_neg h2, if_pos h3, hE]
            rcases ih false (lteB input ver :: acc) with
              ⟨herr, q, hq, hthrow⟩ | hok
            · exact Or.inl ⟨by rw [hgo]; exact herr, q,
                List.mem_cons_of_mem _ hq, hthrow⟩
            · right
              have hro : restrictiveOp op = true := by
                simp [restrictiveOp, h1]
              have hcv : clauseValue input op ver = lteB input ver := by
                simp [clauseValue, h1, h2, h3]
              rw [hgo, hok]
              simp only [List.all_cons, List.map_cons, hro, hcv,
                List.reverse_cons, List.append_assoc, List.singleton_append,
                Bool.not_true, Bool.false_and, Bool.and_false]
          · refine Or.inl ⟨?_, (op, ver), List.mem_cons_self _ _, ?_⟩
            · simp only [goClauses]
              rw [if_neg h1, if_neg h2, if_pos h3, hE]
            · simp [clauseThrows, h1, h2, h3, hE]
        · have hgo : goClauses input ((op, ver) :: rest) invert acc =
              goClauses input rest false (false :: acc) := by
            simp only [goClauses]
            rw [if_neg h1, if_neg h2, if_neg h3]
          rcases ih false (false :: acc) with ⟨herr, q, hq, hthrow⟩ | hok
          · exact Or.inl ⟨by rw [hgo]; exact herr, q,
              List.mem_cons_of_mem _ hq, hthrow⟩
          · right
            have hro : restrictiveOp op = true := by simp [restrictiveOp, h1]
            have hcv : clauseValue input op ver = false := by
              simp [clauseValue, h1, h2, h3]
            rw [hgo, hok]
            simp only [List.all_cons, List.map_cons, hro, hcv,
              List.reverse_cons, List.append_assoc, List.singleton_append,
              Bool.not_true, Bool.false_and, Bool.and_false]

theorem clauseThrows_restrictive {input : String}
    {p : Option String × Option String} (h : clauseThrows input p = true) :
    restrictiveOp p.1 = true := by
  unfold clauseThrows at h
  by_cases h1 : p.1 = some "!=" ∨ p.1 = some "<=" ∨ p.1 = some "<"
  · rw [if_pos h1] at h
    cases h
  · simp [restrictiveOp, h1]

theorem clauseThrows_value {input : String}
    {p : Option String × Option String} (h : clauseThrows input p = true) :
    clauseValue input p.1 p.2 = false := by
  unfold clauseThrows at h
  unfold clauseValue
  by_cases h1 : p.1 = some "!=" ∨ p.1 = some "<=" ∨ p.1 = some "<"
  · rw [if_pos h1] at h
    cases h
  rw [if_neg h1] at h ⊢
  by_cases h2 : p.1 = some "~=" ∨ p.1 = some "==" ∨ p.1 = some ">=" ∨
      p.1 = some "==="
  · rw [if_pos h2] at h ⊢
    rcases ltE_cases input p.2 with hE | ⟨hE, hBv⟩
    · rw [hE] at h
      cases h
    · exact hBv
  rw [if_neg h2] at h ⊢
  by_cases h3 : p.1 = some ">"
  · rw [if_pos h3] at h ⊢
    rcases lteE_cases input p.2 with hE | ⟨hE, hBv⟩
    · rw [hE] at h
      cases h
    · exact hBv
  · rw [if_neg h3] at h
    cases h

theorem isLess_error {input range : String}
    (h : goClauses input (clausePairs range) true [] = Except.error ()) :
    isLessThanRange input range = false := by
  unfold isLessThanRange
  rw [h]

theorem isLess_ok {input range : String} {invert : Bool} {results : List Bool}
    (h : goClauses input (clausePairs range) true [] =
      Except.ok (invert, results)) :
    isLessThanRange input range =
      (if invert = true then !(results.all (fun res => res = true))
       else results.all (fun res => res = true)) := by
  unfold isLessThanRange
  rw [h]

/-- C7: `isLessThanRange` computes exactly the claim's clause table:
clauses with operator `!=`, `<=`, `<` contribute true; `~=`, `==`, `>=`,
`===` contribute strictly-less; `>` contributes less-or-equal; the result
is the conjunction of the clause results, negated when no clause with a
restrictive operator was seen.  (A comparison the library would throw on
contributes a false value through a restrictive clause, matching the
caught-exception result.) -/
theorem isLessThanRange_clause_table (input range : String) :
    isLessThanRange input range =
      (if (clausePairs range).any (fun p => restrictiveOp p.1) then
        (clausePairs range).all (fun p => clauseValue input p.1 p.2)
      else !((clausePairs range).all (fun p => clauseValue input p.1 p.2))) := by
  rcases goClauses_split input (clausePairs range) true [] with
    ⟨herr, p, hmem, hthrow⟩ | hok
  · have hrop := clauseThrows_restrictive hthrow
    have hval := clauseThrows_value hthrow
    have hany : (clausePairs range).any (fun q => restrictiveOp q.1) = true :=
      List.any_eq_true.mpr ⟨p, hmem, hrop⟩
    have hall : (clausePairs range).all
        (fun q => clauseValue input q.1 q.2) = false := by
      rcases hc : (clausePairs range).all (fun q => clauseValue input q.1 q.2)
      · rfl
      · have := List.all_eq_true.mp hc p hmem
        rw [hval] at this
        cases this
    rw [isLess_error herr, if_pos hany, hall]
  · rw [isLess_ok hok]
    simp only [Bool.true_and, List.reverse_nil, List.nil_append,
      all_map_eq_true]
    rw [all_not_any]
    rcases hany : (clausePairs range).any (fun p => restrictiveOp p.1) <;>
      simp [hany]

/-! ### Future-version synthesizer: basic lemmas -/

theorem incLast_cons (a : Nat) {l : List Nat} (step : Nat) (h : l ≠ []) :
    incLast (a :: l) step = a :: incLast l step := by
  rcases l with _ | ⟨x, xs⟩
  · exact absurd rfl h
  · unfold incLast
    simp only [List.length_cons, Nat.add_sub_cancel]
    rfl

theorem copyTos_length (bs : List Nat) : ∀ tos,
    (copyTos bs tos).length = bs.length := by
  induction bs with
  | nil => intro tos; rfl
  | cons b bs ih => intro tos; simp [copyTos, ih]

theorem copyTos_ne_nil {bs : List Nat} (h : bs ≠ []) (tos : List Nat) :
    copyTos bs tos ≠ [] := by
  rcases bs with _ | ⟨b, bs⟩
  · exact absurd rfl h
  · simp [copyTos]

theorem partOne_futureMap_found (bs : List Nat) : ∀ tos step,
    PartOne.futureMap bs tos step true = (bs.map (fun _ => 0), true) := by
  induction bs with
  | nil => intro tos step; rfl
  | cons b bs ih =>
    intro tos step
    simp [PartOne.futureMap, ih]

theorem partOne_futureMap_length (bs : List Nat) : ∀ tos step found,
    (PartOne.futureMap bs tos step found).1.length = bs.length := by
  induction bs with
  | nil => intro tos step found; rfl
  | cons b bs ih =>
    intro tos step found
    rcases found
    · simp only [PartOne.futureMap, Bool.false_eq_true, if_false]
      split <;> simp [ih]
    · simp [PartOne.futureMap, ih]

theorem partOne_fr_cons (b : Nat) (bs tos : List Nat) (step : Nat)
    (hx : ¬b < tos.headD 0) (hbs : bs ≠ []) :
    PartOne.futureRelease (b :: bs) tos step =
      tos.headD 0 :: PartOne.futureRelease bs tos.tail step := by
  unfold PartOne.futureRelease
  rcases hr : PartOne.futureMap bs tos.tail step false with ⟨r1, r2⟩
  have hmap : PartOne.futureMap (b :: bs) tos step false =
      (tos.headD 0 :: r1, r2) := by
    simp only [PartOne.futureMap]
    rw [if_neg (by simp), if_neg hx, hr]
  rw [hmap]
  have hr1 : r1 ≠ [] := by
    have hlen := partOne_futureMap_length bs tos.tail step false
    rw [hr] at hlen
    intro hnil
    rw [hnil] at hlen
    rcases bs with _ | ⟨x, xs⟩
    · exact hbs rfl
    · simp at hlen
  rcases r2
  · simp [incLast_cons _ _ hr1]
  · simp

theorem getD_succ (tos : List Nat) (k : Nat) :
    tos.getD (k + 1) 0 = tos.tail.getD k 0 := by
  rcases tos with _ | ⟨t, tos'⟩ <;> simp [List.getD]

theorem claimFuture_cons (b : Nat) (bs tos : List Nat) (step : Nat)
    (hx : ¬b < tos.headD 0) (hbs : bs ≠ []) :
    claimFuture (b :: bs) tos step =
      tos.headD 0 :: claimFuture bs tos.tail step := by
  unfold claimFuture
  have hfe : firstExceed (b :: bs) tos =
      (firstExceed bs tos.tail).map (fun i => i + 1) := by
    simp [firstExceed, hx, -List.headD_eq_head?_getD]
  rw [hfe]
  rcases hf : firstExceed bs tos.tail with _ | i
  · show incLast (copyTos (b :: bs) tos) step = _
    rw [show copyTos (b :: bs) tos =
      tos.headD 0 :: copyTos bs tos.tail from rfl]
    rw [incLast_cons _ _ (copyTos_ne_nil hbs tos.tail)]
  · show advanceAt (b :: bs) tos step (i + 1) = _
    rfl

theorem partOne_fr_eq_claimFuture (bases : List Nat) : ∀ tos step,
    PartOne.futureRelease bases tos step = claimFuture bases tos step := by
  induction bases with
  | nil => intro tos step; rfl
  | cons b bs ih =>
    intro tos step
    by_cases hx : b < tos.headD 0
    · have hmap : PartOne.futureMap (b :: bs) tos step false =
          ((tos.headD 0 + step) :: bs.map (fun _ => 0), true) := by
        simp only [PartOne.futureMap]
        rw [if_neg (by simp), if_pos hx, partOne_futureMap_found]
      have hfe : firstExceed (b :: bs) tos = some 0 := by
        simp [firstExceed, hx, -List.headD_eq_head?_getD]
      unfold PartOne.futureRelease claimFuture
      rw [hmap, hfe]
      show _ = advanceAt (b :: bs) tos step 0
      simp [advanceAt]
    · rcases hbs : bs with _ | ⟨b1, bs1⟩
      · subst hbs
        have hfe : firstExceed [b] tos = none := by
          simp [firstExceed, hx, -List.headD_eq_head?_getD]
        unfold PartOne.futureRelease claimFuture
        rw [hfe]
        simp [PartOne.futureMap, hx, copyTos, -List.headD_eq_head?_getD]
      · rw [← hbs]
        have hbne : bs ≠ [] := by rw [hbs]; simp
        rw [partOne_fr_cons _ _ _ _ hx hbne, claimFuture_cons _ _ _ _ hx hbne,
          ih]

/-! ### C5: the part_001 walk matches the claim's description -/

/-- C5: `getFutureVersion` of part_001 walks the tuples positionally: at
the first position where the target's component exceeds the base's, the
output is the target's component plus step, every later position is zero
and every earlier position copies the target's component; with no such
position the last output position is the target's component there plus
step (`claimFuture` is that description verbatim). -/
theorem getFutureVersion_walk_spec (baseVersion newVersion : String)
    (step : Nat) :
    PartOne.getFutureVersion baseVersion newVersion step =
      pep440.joinRelease
        (claimFuture (pep440.releaseOf baseVersion)
          (pep440.releaseOf newVersion) step) := by
  unfold PartOne.getFutureVersion
  rw [partOne_fr_eq_claimFuture]

/-! ### The range.ts found/set scan: characterization -/

theorem relCmp_cons (x : Nat) (xs ys : List Nat) :
    pep440.relCmp (x :: xs) ys =
      (if x < ys.headD 0 then Ordering.lt
       else if ys.headD 0 < x then Ordering.gt
       else pep440.relCmp xs ys.tail) := rfl

theorem rangeTs_futureMap_cons_def (b : Nat) (bs tos : List Nat)
    (found : Bool) (set : Option Nat) (idx : Nat) :
    RangeTs.futureMap (b :: bs) tos found set idx =
      (if found && set.isNone then
        (tos.headD 0 ::
          (RangeTs.futureMap bs tos.tail found (some idx) (idx + 1)).1,
         (RangeTs.futureMap bs tos.tail found (some idx) (idx + 1)).2)
      else if found then
        (0 :: (RangeTs.futureMap bs tos.tail found set (idx + 1)).1,
         (RangeTs.futureMap bs tos.tail found set (idx + 1)).2)
      else if b < tos.headD 0 then
        (tos.headD 0 :: (RangeTs.futureMap bs tos.tail true set (idx + 1)).1,
         (RangeTs.futureMap bs tos.tail true set (idx + 1)).2)
      else
        (tos.headD 0 :: (RangeTs.futureMap bs tos.tail found set (idx + 1)).1,
         (RangeTs.futureMap bs tos.tail found set (idx + 1)).2)) := rfl

theorem rangeTs_futureMap_found_some (bs : List Nat) : ∀ tos s idx,
    RangeTs.futureMap bs tos true (some s) idx =
      (bs.map (fun _ => 0), true, some s) := by
  induction bs with
  | nil => intro tos s idx; rfl
  | cons b bs ih =>
    intro tos s idx
    rw [rangeTs_futureMap_cons_def, if_neg (by simp), if_pos rfl, ih]
    rfl

theorem rangeTs_futureMap_found_none_cons (b : Nat) (bs tos : List Nat)
    (idx : Nat) :
    RangeTs.futureMap (b :: bs) tos true none idx =
      (tos.headD 0 :: bs.map (fun _ => 0), true, some idx) := by
  rw [rangeTs_futureMap_cons_def, if_pos (by simp),
    rangeTs_futureMap_found_some]

theorem rangeTs_futureMap_exceed_nil (b : Nat) (tos : List Nat) (j : Nat)
    (hx : b < tos.headD 0) :
    RangeTs.futureMap [b] tos false none j = ([tos.headD 0], true, none) := by
  rw [rangeTs_futureMap_cons_def, if_neg (by simp), if_neg (by simp),
    if_pos hx]
  rfl

theorem rangeTs_futureMap_exceed_cons (b b1 : Nat) (bs1 tos : List Nat)
    (j : Nat) (hx : b < tos.headD 0) :
    RangeTs.futureMap (b :: b1 :: bs1) tos false none j =
      (tos.headD 0 :: tos.tail.headD 0 :: bs1.map (fun _ => 0), true,
        some (j + 1)) := by
  rw [rangeTs_futureMap_cons_def, if_neg (by simp), if_neg (by simp),
    if_pos hx, rangeTs_futureMap_found_none_cons]

theorem rangeTs_futureMap_noexceed (b : Nat) (bs tos : List Nat) (j : Nat)
    (hx : ¬b < tos.headD 0) :
    RangeTs.futureMap (b :: bs) tos false none j =
      (tos.headD 0 :: (RangeTs.futureMap bs tos.tail false none (j + 1)).1,
       (RangeTs.futureMap bs tos.tail false none (j + 1)).2) := by
  rw [rangeTs_futureMap_cons_def, if_neg (by simp), if_neg (by simp),
    if_neg hx]

theorem rangeTs_futureMap_length (bs : List Nat) : ∀ tos found set idx,
    (RangeTs.futureMap bs tos found set idx).1.length = bs.length := by
  induction bs with
  | nil => intro tos found set idx; rfl
  | cons b bs ih =>
    intro tos found set idx
    simp only [RangeTs.futureMap]
    split
    · simp [ih]
    · split
      · simp [ih]
      · split
        · simp [ih]
        · simp [ih]

theorem rangeTs_futureMap_shift (bs : List Nat) : ∀ tos idx,
    RangeTs.futureMap bs tos false none idx =
      ((RangeTs.futureMap bs tos false none 0).1,
       (RangeTs.futureMap bs tos false none 0).2.1,
       ((RangeTs.futureMap bs tos false none 0).2.2).map
         (fun s => s + idx)) := by
  induction bs with
  | nil => intro tos idx; rfl
  | cons b bs ih =>
    intro tos idx
    by_cases hx : b < tos.headD 0
    · rcases bs with _ | ⟨b1, bs1⟩
      · rw [rangeTs_futureMap_exceed_nil _ _ _ hx,
          rangeTs_futureMap_exceed_nil _ _ _ hx]
        rfl
      · rw [rangeTs_futureMap_exceed_cons _ _ _ _ _ hx,
          rangeTs_futureMap_exceed_cons _ _ _ _ _ hx]
        simp [Nat.add_comm]
    · rw [rangeTs_futureMap_noexceed _ _ _ _ hx,
        rangeTs_futureMap_noexceed _ _ _ _ hx, ih tos.tail (idx + 1),
        ih tos.tail 1]
      rcases hS : (RangeTs.futureMap bs tos.tail false none 0).2.2 with _ | sv
      · simp
      · simp only [Option.map_some']
        simp [Prod.ext_iff]
        omega

theorem rangeTs_futureMap_set_inv (bs : List Nat) : ∀ tos idx s,
    (RangeTs.futureMap bs tos false none idx).2.2 = some s →
    (RangeTs.futureMap bs tos false none idx).2.1 = true ∧ idx < s := by
  induction bs with
  | nil =>
    intro tos idx s h
    exact Option.noConfusion h
  | cons b bs ih =>
    intro tos idx s h
    by_cases hx : b < tos.headD 0
    · rcases bs with _ | ⟨b1, bs1⟩
      · rw [rangeTs_futureMap_exceed_nil _ _ _ hx] at h
        exact Option.noConfusion h
      · rw [rangeTs_futureMap_exceed_cons _ _ _ _ _ hx] at h ⊢
        injection h with h
        exact ⟨rfl, by omega⟩
    · rw [rangeTs_futureMap_noexceed _ _ _ _ hx] at h ⊢
      have := ih tos.tail (idx + 1) s h
      exact ⟨this.1, by omega⟩

theorem rangeTs_fr_exceed_nil (b : Nat) (tos : List Nat) (step : Nat)
    (hx : b < tos.headD 0) :
    RangeTs.futureRelease [b] tos step = [tos.headD 0 + step] := by
  unfold RangeTs.futureRelease
  rw [rangeTs_futureMap_exceed_nil _ _ _ hx]
  rfl

theorem rangeTs_fr_exceed_single (b b1 : Nat) (tos : List Nat) (step : Nat)
    (hx : b < tos.headD 0) :
    RangeTs.futureRelease [b, b1] tos step =
      [tos.headD 0 + step, tos.tail.headD 0] := by
  unfold RangeTs.futureRelease
  rw [rangeTs_futureMap_exceed_cons _ _ _ _ _ hx]
  rfl

theorem rangeTs_fr_exceed_long (b b1 b2 : Nat) (bs2 tos : List Nat)
    (step : Nat) (hx : b < tos.headD 0) :
    RangeTs.futureRelease (b :: b1 :: b2 :: bs2) tos step =
      tos.headD 0 :: (tos.tail.headD 0 + step) ::
        (b2 :: bs2).map (fun _ => 0) := by
  unfold RangeTs.futureRelease
  rw [rangeTs_futureMap_exceed_cons _ _ _ _ _ hx]
  have hlen : (tos.headD 0 :: tos.tail.headD 0 ::
      (b2 :: bs2).map (fun _ => 0)).length - 1 = bs2.length + 2 := by
    simp
  simp only []
  rw [if_neg (by simp)]
  rfl

theorem rangeTs_fr_cons (b : Nat) (bs tos : List Nat) (step : Nat)
    (hx : ¬b < tos.headD 0) (hbs : bs ≠ []) :
    RangeTs.futureRelease (b :: bs) tos step =
      tos.headD 0 :: RangeTs.futureRelease bs tos.tail step := by
  unfold RangeTs.futureRelease
  rw [rangeTs_futureMap_noexceed _ _ _ _ hx, rangeTs_futureMap_shift bs tos.tail 1]
  rcases hr : RangeTs.futureMap bs tos.tail false none 0 with ⟨A, f, S⟩
  have hA : A.length = bs.length := by
    have hl := rangeTs_futureMap_length bs tos.tail false none 0
    rw [hr] at hl
    exact hl
  have hAne : A ≠ [] := by
    intro hnil
    rw [hnil] at hA
    rcases bs with _ | ⟨x, xs⟩
    · exact hbs rfl
    · simp at hA
  have hApos : 0 < A.length := List.length_pos.mpr hAne
  rcases S with _ | sv
  · rcases f
    · show incLast (tos.headD 0 :: A) step = tos.headD 0 :: incLast A step
      exact incLast_cons _ _ hAne
    · show incLast (tos.headD 0 :: A) step = tos.headD 0 :: incLast A step
      exact incLast_cons _ _ hAne
  · have hinv := rangeTs_futureMap_set_inv bs tos.tail 0 sv
    rw [hr] at hinv
    obtain ⟨hf, hsv⟩ := hinv rfl
    have hf' : f = true := hf
    subst hf'
    show incAt (tos.headD 0 :: A)
        (if sv + 1 = (tos.headD 0 :: A).length - 1 then sv + 1 - 1 else sv + 1)
        step =
      tos.headD 0 :: incAt A (if sv = A.length - 1 then sv - 1 else sv) step
    have hlen1 : (tos.headD 0 :: A).length - 1 = A.length := by simp
    rw [hlen1]
    by_cases hc : sv + 1 = A.length
    · rw [if_pos hc, if_pos (by omega : sv = A.length - 1)]
      obtain ⟨k, rfl⟩ : ∃ k, sv = k + 1 := ⟨sv - 1, by omega⟩
      simp only [Nat.add_sub_cancel]
      rfl
    · rw [if_neg hc, if_neg (by omega : ¬sv = A.length - 1)]
      rfl

/-! ### C3: the synthesized release tuple under the intended hypotheses -/

/-- C3 (amended): for a nonempty base release tuple, a strictly positive
step, and a target not below the base under the padded positional
comparison, the tuple produced by the range.ts `futureRelease` (the core
of `getFutureVersion`) is strictly greater than both the base and the
target.  Without these hypotheses the claim fails (see the
counterexample: step 0 can reproduce the target, and a target below the
base can reproduce the base). -/
theorem futureVersion_greater_amended :
    ∀ (bases tos : List Nat) (step : Nat),
      bases ≠ [] → 1 ≤ step → pep440.relCmp tos bases ≠ Ordering.lt →
      pep440.relCmp (RangeTs.futureRelease bases tos step) bases =
        Ordering.gt ∧
      pep440.relCmp (RangeTs.futureRelease bases tos step) tos =
        Ordering.gt := by
  intro bases
  induction bases with
  | nil =>
    intro tos step hne
    exact absurd rfl hne
  | cons b bs ih =>
    intro tos step hne hstep hge
    by_cases hx : b < tos.headD 0
    · rcases bs with _ | ⟨b1, bs1⟩
      · rw [rangeTs_fr_exceed_nil _ _ _ hx]
        constructor
        · rw [relCmp_cons]
          simp only [List.headD_cons]
          rw [if_neg (by omega), if_pos (by omega)]
        · rw [relCmp_cons]
          rw [if_neg (by omega), if_pos (by omega)]
      · rcases bs1 with _ | ⟨b2, bs2⟩
        · rw [rangeTs_fr_exceed_single _ _ _ _ hx]
          constructor
          · rw [relCmp_cons]
            simp only [List.headD_cons]
            rw [if_neg (by omega), if_pos (by omega)]
          · rw [relCmp_cons]
            rw [if_neg (by omega), if_pos (by omega)]
        · rw [rangeTs_fr_exceed_long _ _ _ _ _ _ hx]
          constructor
          · rw [relCmp_cons]
            simp only [List.headD_cons]
            rw [if_neg (by omega), if_pos (by omega)]
          · rw [relCmp_cons]
            rw [if_neg (by omega), if_neg (by omega), relCmp_cons]
            rw [if_neg (by omega), if_pos (by omega)]
    · rcases tos with _ | ⟨t, tos'⟩
      · have hall : (b :: bs).all (fun y => y = 0) = true := by
          by_contra hq
          apply hge
          show (if (b :: bs).all (fun y => y = 0) then Ordering.eq
            else Ordering.lt) = Ordering.lt
          rw [if_neg hq]
        have hball := List.all_eq_true.mp hall
        have hb0 : b = 0 := by simpa using hball b (List.mem_cons_self _ _)
        subst hb0
        rcases bs with _ | ⟨c, cs⟩
        · have hfr : RangeTs.futureRelease [0] [] step = [0 + step] := rfl
          rw [hfr]
          constructor
          · rw [relCmp_cons]
            simp only [List.headD_cons]
            rw [if_neg (by omega), if_pos (by omega)]
          · rw [relCmp_cons]
            rw [if_neg (by omega), if_pos (by omega)]
        · have hbs2 : (c :: cs) ≠ [] := by simp
          have hge2 : pep440.relCmp [] (c :: cs) ≠ Ordering.lt := by
            have hcall : (c :: cs).all (fun y => y = 0) = true := by
              rw [List.all_eq_true]
              intro x hxm
              exact hball x (List.mem_cons_of_mem _ hxm)
            show ¬(if (c :: cs).all (fun y => y = 0) then Ordering.eq
              else Ordering.lt) = Ordering.lt
            rw [if_pos hcall]
            decide
          have hih := ih [] step hbs2 hstep hge2
          rw [rangeTs_fr_cons _ _ _ _ hx hbs2]
          constructor
          · rw [relCmp_cons]
            simp only [List.headD_cons]
            rw [if_neg (by omega), if_neg (by omega)]
            exact hih.1
          · rw [relCmp_cons]
            rw [if_neg (by omega), if_neg (by omega)]
            exact hih.2
      · have hx' : ¬b < t := by simpa using hx
        have htb : ¬t < b := by
          intro hlt
          apply hge
          rw [relCmp_cons]
          simp only [List.headD_cons]
          rw [if_pos hlt]
        have htb2 : t = b := by omega
        subst htb2
        have hge2 : pep440.relCmp tos' bs ≠ Ordering.lt := by
          intro hlt
          apply hge
          rw [relCmp_cons]
          simp only [List.headD_cons, List.tail_cons]
          rw [if_neg (by omega), if_neg (by omega)]
          exact hlt
        rcases bs with _ | ⟨c, cs⟩
        · have hfr : RangeTs.futureRelease [t] (t :: tos') step =
              [t + step] := by
            unfold RangeTs.futureRelease
            rw [rangeTs_futureMap_noexceed _ _ _ _ hx]
            rfl
          rw [hfr]
          constructor
          · rw [relCmp_cons]
            simp only [List.headD_cons]
            rw [if_neg (by omega), if_pos (by omega)]
          · rw [relCmp_cons]
            simp only [List.headD_cons]
            rw [if_neg (by omega), if_pos (by omega)]
        · have hbs2 : (c :: cs) ≠ [] := by simp
          have hih := ih tos' step hbs2 hstep hge2
          rw [rangeTs_fr_cons _ _ _ _ hx hbs2]
          simp only [List.headD_cons, List.tail_cons]
          constructor
          · rw [relCmp_cons]
            simp only [List.headD_cons]
            rw [if_neg (by omega), if_neg (by omega)]
            exact hih.1
          · rw [relCmp_cons]
            simp only [List.headD_cons, List.tail_cons]
            rw [if_neg (by omega), if_neg (by omega)]
            exact hih.2

/-- C3 (witness): base `[1,0,0]`, target `[2,3,0]`, step 1 gives `[2,4,0]`,
strictly above both. -/
theorem futureVersion_greater_witness :
    pep440.relCmp (RangeTs.futureRelease [1, 0, 0] [2, 3, 0] 1) [1, 0, 0] =
      Ordering.gt ∧
    pep440.relCmp (RangeTs.futureRelease [1, 0, 0] [2, 3, 0] 1) [2, 3, 0] =
      Ordering.gt :=
  futureVersion_greater_amended [1, 0, 0] [2, 3, 0] 1 (by decide) (by decide)
    (by decide)

/-! ### C10: where the two synthesizers agree -/

theorem futureRelease_agree :
    ∀ (bases tos : List Nat) (step : Nat),
      (firstExceed bases tos = none ∨
       firstExceed bases tos = some (bases.length - 1) ∨
       (firstExceed bases tos = some (bases.length - 2) ∧
         tos.getD (bases.length - 1) 0 = 0)) →
      RangeTs.futureRelease bases tos step =
        PartOne.futureRelease bases tos step := by
  intro bases
  induction bases with
  | nil => intro tos step h; rfl
  | cons b bs ih =>
    intro tos step h
    by_cases hx : b < tos.headD 0
    · have hfe : firstExceed (b :: bs) tos = some 0 := by
        simp [firstExceed, hx, -List.headD_eq_head?_getD]
      have hpmap : ∀ bs' : List Nat,
          PartOne.futureRelease (b :: bs') tos step =
            (tos.headD 0 + step) :: bs'.map (fun _ => 0) := by
        intro bs'
        unfold PartOne.futureRelease
        have hm : PartOne.futureMap (b :: bs') tos step false =
            ((tos.headD 0 + step) :: bs'.map (fun _ => 0), true) := by
          simp only [PartOne.futureMap]
          rw [if_neg (by simp), if_pos hx, partOne_futureMap_found]
        rw [hm]
        rfl
      rcases h with h | h | ⟨h, hz⟩
      · rw [hfe] at h
        exact Option.noConfusion h
      · rw [hfe] at h
        injection h with h
        have hbs : bs = [] := by
          rcases bs with _ | ⟨x, xs⟩
          · rfl
          · simp at h
        subst hbs
        rw [rangeTs_fr_exceed_nil _ _ _ hx, hpmap []]
        rfl
      · rw [hfe] at h
        injection h with h
        rcases bs with _ | ⟨b1, bs1⟩
        · rw [rangeTs_fr_exceed_nil _ _ _ hx, hpmap []]
          rfl
        · rcases bs1 with _ | ⟨b2, bs2⟩
          · have ht1 : tos.tail.headD 0 = 0 := by
              have hz' := hz
              simp only [List.length_cons] at hz'
              rcases tos with _ | ⟨t0, tos'⟩
              · rfl
              · rcases tos' with _ | ⟨t1, tos''⟩
                · rfl
                · simpa [List.getD] using hz'
            rw [rangeTs_fr_exceed_single _ _ _ _ hx, hpmap [b1], ht1]
            rfl
          · exfalso
            simp at h
    · have hfe : firstExceed (b :: bs) tos =
          (firstExceed bs tos.tail).map (fun i => i + 1) := by
        simp [firstExceed, hx, -List.headD_eq_head?_getD]
      by_cases hbe : bs = []
      · subst hbe
        have hfr : RangeTs.futureRelease [b] tos step = [tos.headD 0 + step] := by
          unfold RangeTs.futureRelease
          rw [rangeTs_futureMap_noexceed _ _ _ _ hx]
          rfl
        have hm2 : PartOne.futureMap [b] tos step false =
            ([tos.headD 0], false) := by
          simp only [PartOne.futureMap]
          rw [if_neg (by simp), if_neg hx]
        have hfr2 : PartOne.futureRelease [b] tos step =
            [tos.headD 0 + step] := by
          unfold PartOne.futureRelease
          rw [hm2]
          rfl
        rw [hfr, hfr2]
      · rw [rangeTs_fr_cons _ _ _ _ hx hbe, partOne_fr_cons _ _ _ _ hx hbe]
        congr 1
        apply ih
        have hlpos : 1 ≤ bs.length := List.length_pos.mpr hbe
        rcases h with h | h | ⟨h, hz⟩
        · left
          rw [hfe] at h
          rcases hf : firstExceed bs tos.tail with _ | i
          · rfl
          · rw [hf] at h
            simp at h
        · right
          left
          rw [hfe] at h
          rcases hf : firstExceed bs tos.tail with _ | i
          · rw [hf] at h
            simp at h
          · rw [hf] at h
            simp only [Option.map_some', List.length_cons,
              Nat.add_sub_cancel] at h
            injection h with h
            have : i = bs.length - 1 := by omega
            rw [this]
        · right
          right
          rw [hfe] at h
          rcases hf : firstExceed bs tos.tail with _ | i
          · rw [hf] at h
            simp at h
          · rw [hf] at h
            simp only [Option.map_some', List.length_cons] at h
            injection h with h
            constructor
            · have : i = bs.length - 2 := by omega
              rw [this]
            · simp only [List.length_cons, Nat.add_sub_cancel] at hz
              have hsh : tos.getD bs.length 0 = tos.tail.getD (bs.length - 1) 0 := by
                obtain ⟨m, hm⟩ : ∃ m, bs.length = m + 1 := ⟨bs.length - 1, by omega⟩
                rw [hm, getD_succ]
                simp [hm]
              rw [← hsh]
              exact hz

/-- C10 (amended): the two embeddings of `getFutureVersion` agree whenever
the target exceeds the base at no position, at the last position of the
base tuple, or at the second-to-last position with the target's last
component an (implicit) zero; in general they differ (see the
counterexample `1.0.5`/`1.2.7`). -/
theorem futureVersion_variants_agree_amended
    (baseVersion newVersion : String) (step : Nat)
    (h : firstExceed (pep440.releaseOf baseVersion)
        (pep440.releaseOf newVersion) = none ∨
      firstExceed (pep440.releaseOf baseVersion)
        (pep440.releaseOf newVersion) =
        some ((pep440.releaseOf baseVersion).length - 1) ∨
      (firstExceed (pep440.releaseOf baseVersion)
          (pep440.releaseOf newVersion) =
          some ((pep440.releaseOf baseVersion).length - 2) ∧
        (pep440.releaseOf newVersion).getD
          ((pep440.releaseOf baseVersion).length - 1) 0 = 0)) :
    RangeTs.getFutureVersion baseVersion newVersion step =
      PartOne.getFutureVersion baseVersion newVersion step := by
  unfold RangeTs.getFutureVersion PartOne.getFutureVersion
  rw [futureRelease_agree _ _ _ h]

/-- C10 (witness): on base `2.0.0`, target `2.3.0`, step 1 (the advance
point is second-to-last and the target ends in 0) both variants give
`2.4.0`. -/
theorem futureVersion_variants_agree_witness :
    RangeTs.getFutureVersion "2.0.0" "2.3.0" 1 =
      PartOne.getFutureVersion "2.0.0" "2.3.0" 1 :=
  futureVersion_variants_agree_amended "2.0.0" "2.3.0" 1 (by decide)
